import Mathlib

/-!
# AttitudeIndicator.cpp: input sampler, transform builder and frame loop

The program keeps two `float` globals, `pitch` and `roll`, changes them from the
keyboard once per frame (`processInput`), turns them into a column-major 4x4
matrix (`createTransformMatrix`) and draws two quads with it (`main`).

The C type `float` and the libm functions `cosf` and `sinf` are not part of the
repository, so the embedding takes them as parameters (`FloatSem` for the
arithmetic, `Libm` for the two library functions) and the code is translated
once, over those parameters.  The theorems read the parameters as follows:

* `binary32`: IEEE 754 single precision with round-to-nearest, ties-to-even, for
  the literals and the four operations, each result rounded;
* `Libm.Conforming`: what ISO C and the libm manuals promise of `cosf` and
  `sinf`, assumed of the libm the program is linked with; `crLibm`, the
  correctly rounded cosine and sine, is one libm that conforms.
-/

namespace AttitudeIndicator

/-! ## The arithmetic the program relies on -/

/-- Operations on the C type `float` used by the program: literals with the
suffix `f`, the four arithmetic operations and unary minus. -/
structure FloatSem (F : Type) where
  /-- value of a decimal literal such as `0.5f` -/
  lit : ℚ → F
  add : F → F → F
  sub : F → F → F
  mul : F → F → F
  div : F → F → F
  neg : F → F

/-- The two functions of `<cmath>` the program calls. -/
structure Libm (F : Type) where
  cosf : F → F
  sinf : F → F

/-- Nearest integer to `q`, a tie going to the even neighbour. -/
def roundTiesEven (q : ℚ) : ℤ :=
  let f := ⌊q⌋
  let r := q - f
  if r < 1 / 2 then f
  else if 1 / 2 < r then f + 1
  else if f % 2 = 0 then f
  else f + 1

/-- Exponent of the unit in the last place of the binary32 number nearest to
`q`: 24 significant bits, with the subnormal floor `2 ^ (-149)`. -/
def ulpExp (q : ℚ) : ℤ :=
  max (Int.log 2 |q| - 23) (-149)

/-- Rounding of an exact result to binary32, round-to-nearest ties-to-even.
`none` stands for a result that is not a finite number (an overflow to an
infinity); the two zeros are not distinguished. -/
def round32 (q : ℚ) : Option ℚ :=
  let y : ℚ := roundTiesEven (q / 2 ^ ulpExp q) * 2 ^ ulpExp q
  if |y| < 2 ^ (128 : ℕ) then some y else none

/-- IEEE 754 binary32 arithmetic on finite values; `none` is any value that is
not a finite number (an infinity or a NaN), and stays so through `+ - *` and
through a division by a finite non-zero number.  Division by zero gives
`none`.  The program only ever divides by the literals `180.0f` and `90.0f`. -/
def binary32 : FloatSem (Option ℚ) where
  lit q := round32 q
  add a b := a.bind fun x => b.bind fun y => round32 (x + y)
  sub a b := a.bind fun x => b.bind fun y => round32 (x - y)
  mul a b := a.bind fun x => b.bind fun y => round32 (x * y)
  div a b := a.bind fun x => b.bind fun y => if y = 0 then none else round32 (x / y)
  neg a := a.map fun x => -x

/-- Nearest integer to a real number, a tie going to the even neighbour: the
rule of `roundTiesEven`, applied to a real argument. -/
noncomputable def roundTiesEvenR (x : ℝ) : ℤ :=
  let f := ⌊x⌋
  let r := x - f
  if r < 1 / 2 then f
  else if 1 / 2 < r then f + 1
  else if f % 2 = 0 then f
  else f + 1

/-- Exponent of the unit in the last place, as `ulpExp`, for a real argument. -/
noncomputable def ulpExpR (y : ℝ) : ℤ :=
  max (Int.log 2 |y| - 23) (-149)

/-- Rounding of a real number to binary32, round-to-nearest ties-to-even: the
rule of `round32`, applied to a real argument. -/
noncomputable def round32R (y : ℝ) : Option ℚ :=
  let v : ℚ := roundTiesEvenR (y / 2 ^ ulpExpR y) * 2 ^ ulpExpR y
  if |v| < 2 ^ (128 : ℕ) then some v else none

/-- What the program may assume of the `cosf` and `sinf` it is linked with
(ISO C Annex F.10.1 and the accuracy the libm manuals state, below one unit in
the last place): an argument that is not a finite number gives a result that is
not a finite number; `cosf(0) = 1` and `sinf(0) = 0`; a finite argument gives a
binary32 number within `2 ^ (-24)` of the real cosine or sine. -/
structure Libm.Conforming (L : Libm (Option ℚ)) : Prop where
  cosf_none : L.cosf none = none
  sinf_none : L.sinf none = none
  cosf_zero : L.cosf (some 0) = some 1
  sinf_zero : L.sinf (some 0) = some 0
  cosf_some : ∀ x : ℚ, ∃ c : ℚ, L.cosf (some x) = some c ∧ round32 c = some c ∧
    |(c : ℝ) - Real.cos x| ≤ 1 / 2 ^ (24 : ℕ)
  sinf_some : ∀ x : ℚ, ∃ s : ℚ, L.sinf (some x) = some s ∧ round32 s = some s ∧
    |(s : ℝ) - Real.sin x| ≤ 1 / 2 ^ (24 : ℕ)

/-- The correctly rounded libm: the binary32 number nearest to the real cosine
or sine of a finite argument; a NaN for an argument that is not finite. -/
noncomputable def crLibm : Libm (Option ℚ) where
  cosf a := a.bind fun x => round32R (Real.cos x)
  sinf a := a.bind fun x => round32R (Real.sin x)

/-! ## Program state -/

/-- The globals `float pitch = 0.0f; float roll = 0.0f;`. -/
structure Globals (F : Type) where
  pitch : F
  roll : F

/-- Values of the globals at program start. -/
def Globals.init {F : Type} (S : FloatSem F) : Globals F :=
  { pitch := S.lit 0.0, roll := S.lit 0.0 }

/-- What `glfwGetKey(window, KEY) == GLFW_PRESS` reports for the five keys the
program samples. -/
structure Keys where
  escape : Bool
  up : Bool
  down : Bool
  left : Bool
  right : Bool

/-- No key pressed. -/
def Keys.none : Keys :=
  { escape := false, up := false, down := false, left := false, right := false }

/-- Only the Up arrow held. -/
def Keys.upOnly : Keys := { Keys.none with up := true }

/-- Only the Down arrow held. -/
def Keys.downOnly : Keys := { Keys.none with down := true }

/-- Only the Right arrow held. -/
def Keys.rightOnly : Keys := { Keys.none with right := true }

/-- The part of the `GLFWwindow` the program reads and writes: its close flag
and the current key states. -/
structure Window where
  shouldClose : Bool
  keys : Keys

/-! ## `processInput` -/

/-- `void processInput(GLFWwindow* window)`: five independent `if` statements,
executed in source order. -/
def processInput {F : Type} (S : FloatSem F) (window : Window) (g : Globals F) :
    Window × Globals F :=
  let window := if window.keys.escape then { window with shouldClose := true } else window
  let g := if window.keys.up then { g with pitch := S.add g.pitch (S.lit 0.5) } else g
  let g := if window.keys.down then { g with pitch := S.sub g.pitch (S.lit 0.5) } else g
  let g := if window.keys.left then { g with roll := S.sub g.roll (S.lit 0.5) } else g
  let g := if window.keys.right then { g with roll := S.add g.roll (S.lit 0.5) } else g
  (window, g)

/-- The globals after `n` consecutive calls of `processInput` during which the
same keys are held. -/
def holdKeys {F : Type} (S : FloatSem F) (keys : Keys) (n : ℕ) (g : Globals F) : Globals F :=
  (fun g => (processInput S { shouldClose := false, keys := keys } g).2)^[n] g

/-! ## `createTransformMatrix` -/

/-- `float radians = roll * 3.1415926f / 180.0f;` -/
def radians {F : Type} (S : FloatSem F) (roll : F) : F :=
  S.div (S.mul roll (S.lit 3.1415926)) (S.lit 180.0)

/-- `float cosA = cosf(radians);` -/
def cosA {F : Type} (S : FloatSem F) (L : Libm F) (roll : F) : F :=
  L.cosf (radians S roll)

/-- `float sinA = sinf(radians);` -/
def sinA {F : Type} (S : FloatSem F) (L : Libm F) (roll : F) : F :=
  L.sinf (radians S roll)

/-- `float translateY = pitch / 90.0f;` -/
def translateY {F : Type} (S : FloatSem F) (pitch : F) : F :=
  S.div pitch (S.lit 90.0)

/-- The local array `float mat[16]` of `createTransformMatrix`, in index order. -/
def mat {F : Type} (S : FloatSem F) (L : Libm F) (pitch roll : F) : Fin 16 → F :=
  ![cosA S L roll, sinA S L roll, S.lit 0.0, S.lit 0.0,
    S.neg (sinA S L roll), cosA S L roll, S.lit 0.0, S.lit 0.0,
    S.lit 0.0, S.lit 0.0, S.lit 1.0, S.lit 0.0,
    S.lit 0.0, translateY S pitch, S.lit 0.0, S.lit 1.0]

/-- `void createTransformMatrix(float pitch, float roll, float* outMatrix)`:
builds `mat` and copies it into the caller's buffer with
`for (int i = 0; i < 16; ++i) outMatrix[i] = mat[i];`.  The result is the
buffer after the call. -/
def createTransformMatrix {F : Type} (S : FloatSem F) (L : Libm F) (pitch roll : F)
    (outMatrix : Fin 16 → F) : Fin 16 → F :=
  (List.finRange 16).foldl (fun out i => Function.update out i (mat S L pitch roll i)) outMatrix

/-! ## The vertex shader -/

/-- The GLSL product `mat4 * vec4` for a matrix stored column-major in 16
floats: component `i` of the result is the sum over `j` of
`m[4 * j + i] * v[j]`. -/
def mat4MulVec4 {F : Type} (S : FloatSem F) (m : Fin 16 → F) (v : Fin 4 → F) : Fin 4 → F :=
  ![S.add (S.add (S.add (S.mul (m 0) (v 0)) (S.mul (m 4) (v 1))) (S.mul (m 8) (v 2)))
      (S.mul (m 12) (v 3)),
    S.add (S.add (S.add (S.mul (m 1) (v 0)) (S.mul (m 5) (v 1))) (S.mul (m 9) (v 2)))
      (S.mul (m 13) (v 3)),
    S.add (S.add (S.add (S.mul (m 2) (v 0)) (S.mul (m 6) (v 1))) (S.mul (m 10) (v 2)))
      (S.mul (m 14) (v 3)),
    S.add (S.add (S.add (S.mul (m 3) (v 0)) (S.mul (m 7) (v 1))) (S.mul (m 11) (v 2)))
      (S.mul (m 15) (v 3))]

/-- The vertex shader `vertexShaderSource`:
`gl_Position = transform * vec4(aPos, 0.0, 1.0);` with `aPos` a `vec2`. -/
def vertexShaderMain {F : Type} (S : FloatSem F) (transform : Fin 16 → F) (aPos : F × F) :
    Fin 4 → F :=
  mat4MulVec4 S transform ![aPos.1, aPos.2, S.lit 0.0, S.lit 1.0]

/-! ## `main`: the calls it makes into GLFW, glad and OpenGL -/

/-- The two shader stages, each with its source text (`vertexShaderSource`,
`fragmentShaderSource`). -/
inductive ShaderStage where
  | vertex
  | fragment

/-- Buffer binding targets used by the program. -/
inductive BufferTarget where
  | arrayBuffer
  | elementArrayBuffer

/-- Window hints set before the window is created. -/
inductive WindowHint where
  | contextVersionMajor
  | contextVersionMinor
  | openglProfile

/-- Names of the two uniforms of the shader program. -/
inductive UniformName where
  | transform
  | color

/-- The two diagnostics written to `std::cerr`. -/
inductive Diagnostic where
  | windowFailed
  | gladFailed

/-- One call made by `main` (or by a function it calls) into GLFW, glad,
OpenGL or `std::cerr`, with the arguments that vary; arguments that are the
same constant at every call site are named in the comment of the constructor. -/
inductive Call (F : Type) where
  | glfwInit
  | glfwWindowHint (hint : WindowHint) (value : ℕ)
  /-- title "Attitude Indicator", no monitor, no share -/
  | glfwCreateWindow (width height : ℕ)
  | cerr (message : Diagnostic)
  | glfwTerminate
  | glfwMakeContextCurrent
  | glfwSetFramebufferSizeCallback
  | gladLoadGLLoader
  | glCreateShader (stage : ShaderStage)
  | glShaderSource (shader : ℕ) (source : ShaderStage)
  | glCompileShader (shader : ℕ)
  | glCreateProgram
  | glAttachShader (program shader : ℕ)
  | glLinkProgram (program : ℕ)
  | glDeleteShader (shader : ℕ)
  | glGenVertexArrays (n : ℕ)
  | glGenBuffers (n : ℕ)
  | glBindVertexArray (array : ℕ)
  | glBindBuffer (target : BufferTarget) (buffer : ℕ)
  /-- usage `GL_STATIC_DRAW`, vertex data -/
  | glBufferDataFloats (target : BufferTarget) (data : List F)
  /-- usage `GL_STATIC_DRAW`, index data -/
  | glBufferDataIndices (target : BufferTarget) (data : List ℕ)
  /-- type `GL_FLOAT`, not normalized, offset 0; the stride is in bytes -/
  | glVertexAttribPointer (index size stride : ℕ)
  | glEnableVertexAttribArray (index : ℕ)
  | glUseProgram (program : ℕ)
  | glGetUniformLocation (program : ℕ) (name : UniformName)
  | glClearColor (red green blue alpha : F)
  /-- mask `GL_COLOR_BUFFER_BIT` -/
  | glClear
  | glUniformMatrix4fv (location : ℤ) (count : ℕ) (transpose : Bool) (value : Fin 16 → F)
  | glUniform3f (location : ℤ) (v0 v1 v2 : F)
  /-- mode `GL_TRIANGLES`, type `GL_UNSIGNED_INT`, offset 0 -/
  | glDrawElements (count : ℕ)
  | glfwSwapBuffers
  | glfwPollEvents
  | glViewport (x y width height : ℤ)
  | glDeleteVertexArrays (n : ℕ) (arrays : List ℕ)
  | glDeleteBuffers (n : ℕ) (buffers : List ℕ)
  | glDeleteProgram (program : ℕ)

/-- Whether a call is `glUseProgram`. -/
def Call.isUseProgram {F : Type} : Call F → Bool
  | .glUseProgram _ => true
  | _ => false

/-- What the libraries hand back to `main`: whether the window and the GL
loader came up, the object names generated by the driver, the uniform
locations, and the indeterminate initial contents of the local array
`float transformMatrix[16]`. -/
structure Driver (F : Type) where
  windowCreated : Bool
  gladLoaded : Bool
  vertexShader : ℕ
  fragmentShader : ℕ
  shaderProgram : ℕ
  VAO : Fin 2 → ℕ
  VBO : Fin 2 → ℕ
  EBO : ℕ
  transformLoc : ℤ
  colorLoc : ℤ
  transformMatrix : Fin 16 → F

/-- What the outside world does during one iteration of the frame loop: the
key states `processInput` samples, and whether the windowing system raises a
close request or a resize that `glfwPollEvents` delivers at the end of the
iteration. -/
structure FrameInput where
  keys : Keys
  closeRequested : Bool
  /-- new framebuffer size, when the window was resized during the iteration -/
  resized : Option (ℤ × ℤ)

/-- `GLFW_OPENGL_CORE_PROFILE`. -/
def GLFW_OPENGL_CORE_PROFILE : ℕ := 0x00032001

/-- `const unsigned int SCR_WIDTH = 800;` -/
def SCR_WIDTH : ℕ := 800

/-- `const unsigned int SCR_HEIGHT = 600;` -/
def SCR_HEIGHT : ℕ := 600

/-- `float skyVertices[]`. -/
def skyVertices {F : Type} (S : FloatSem F) : List F :=
  [S.neg (S.lit 1.0), S.lit 0.0,
   S.lit 1.0, S.lit 0.0,
   S.lit 1.0, S.lit 1.0,
   S.neg (S.lit 1.0), S.lit 1.0]

/-- `float groundVertices[]`. -/
def groundVertices {F : Type} (S : FloatSem F) : List F :=
  [S.neg (S.lit 1.0), S.lit 0.0,
   S.lit 1.0, S.lit 0.0,
   S.lit 1.0, S.neg (S.lit 1.0),
   S.neg (S.lit 1.0), S.neg (S.lit 1.0)]

/-- `unsigned int indices[] = { 0, 1, 2, 2, 3, 0 };` -/
def indices : List ℕ := [0, 1, 2, 2, 3, 0]

/-- `unsigned int compileShader(unsigned int type, const char* source)`: the
calls it makes, `shader` being the name `glCreateShader` returns. -/
def compileShader {F : Type} (stage : ShaderStage) (shader : ℕ) : List (Call F) :=
  [.glCreateShader stage, .glShaderSource shader stage, .glCompileShader shader]

/-- `unsigned int createShaderProgram()`: the calls it makes. -/
def createShaderProgram {F : Type} (d : Driver F) : List (Call F) :=
  compileShader .vertex d.vertexShader ++
  compileShader .fragment d.fragmentShader ++
  [.glCreateProgram,
   .glAttachShader d.shaderProgram d.vertexShader,
   .glAttachShader d.shaderProgram d.fragmentShader,
   .glLinkProgram d.shaderProgram,
   .glDeleteShader d.vertexShader,
   .glDeleteShader d.fragmentShader]

/-- Body of `for (int i = 0; i < 2; ++i)` in `main`: upload of mesh `i`. -/
def uploadMesh {F : Type} (S : FloatSem F) (d : Driver F) (i : Fin 2) : List (Call F) :=
  [.glBindVertexArray (d.VAO i),
   .glBindBuffer .arrayBuffer (d.VBO i),
   .glBufferDataFloats .arrayBuffer (if i = 0 then skyVertices S else groundVertices S),
   .glBindBuffer .elementArrayBuffer d.EBO,
   .glBufferDataIndices .elementArrayBuffer indices,
   .glVertexAttribPointer 0 2 (2 * 4),
   .glEnableVertexAttribArray 0]

/-- Everything `main` does between the successful load of the GL functions
and the frame loop (lines 111 to 150). -/
def setup {F : Type} (S : FloatSem F) (d : Driver F) : List (Call F) :=
  createShaderProgram d ++
  [.glGenVertexArrays 2, .glGenBuffers 2, .glGenBuffers 1] ++
  uploadMesh S d 0 ++ uploadMesh S d 1 ++
  [.glUseProgram d.shaderProgram,
   .glGetUniformLocation d.shaderProgram .transform,
   .glGetUniformLocation d.shaderProgram .color]

/-- `void framebuffer_size_callback(GLFWwindow* window, int width, int height)`:
the call it makes. -/
def framebuffer_size_callback {F : Type} (width height : ℤ) : List (Call F) :=
  [.glViewport 0 0 width height]

/-- The calls made by `glfwPollEvents()` and by the callback it runs when a
resize is pending. -/
def pollEvents {F : Type} (input : FrameInput) : List (Call F) :=
  .glfwPollEvents ::
    (match input.resized with
     | some (width, height) => framebuffer_size_callback width height
     | none => [])

/-- The part of one loop iteration between `processInput` and
`glfwSwapBuffers` (lines 155 to 167): the calls, and the contents of
`transformMatrix` afterwards. -/
def drawFrame {F : Type} (S : FloatSem F) (L : Libm F) (d : Driver F) (g : Globals F)
    (transformMatrix : Fin 16 → F) : List (Call F) × (Fin 16 → F) :=
  let transformMatrix := createTransformMatrix S L g.pitch g.roll transformMatrix
  ([.glClearColor (S.lit 0.0) (S.lit 0.0) (S.lit 0.0) (S.lit 1.0),
    .glClear,
    .glUniformMatrix4fv d.transformLoc 1 false transformMatrix,
    .glUniform3f d.colorLoc (S.lit 0.2) (S.lit 0.4) (S.lit 0.8),
    .glBindVertexArray (d.VAO 0),
    .glDrawElements 6,
    .glUniform3f d.colorLoc (S.lit 0.5) (S.lit 0.3) (S.lit 0.1),
    .glBindVertexArray (d.VAO 1),
    .glDrawElements 6],
   transformMatrix)

/-- Result of running the frame loop on a list of inputs. -/
structure LoopResult (F : Type) where
  /-- the calls made, in order -/
  calls : List (Call F)
  /-- the globals when the run stops -/
  globals : Globals F
  /-- whether the loop condition was seen false, so that the loop was left -/
  exited : Bool

/-- The loop `while (!glfwWindowShouldClose(window))` of `main`, run on the
inputs of successive iterations.  The loop is left when the close flag is
found set; a finite list of inputs that ends before that gives the calls made
so far, with `exited = false`. -/
def frameLoop {F : Type} (S : FloatSem F) (L : Libm F) (d : Driver F) :
    List FrameInput → Bool → Globals F → (Fin 16 → F) → LoopResult F
  | _, true, g, _ => { calls := [], globals := g, exited := true }
  | [], false, g, _ => { calls := [], globals := g, exited := false }
  | input :: rest, false, g, transformMatrix =>
    let wg := processInput S { shouldClose := false, keys := input.keys } g
    let drawn := drawFrame S L d wg.2 transformMatrix
    let later := frameLoop S L d rest (wg.1.shouldClose || input.closeRequested) wg.2 drawn.2
    { later with calls := drawn.1 ++ [.glfwSwapBuffers] ++ pollEvents input ++ later.calls }

/-- Release of the GL objects and of GLFW after the loop (lines 173 to 178). -/
def teardown {F : Type} (d : Driver F) : List (Call F) :=
  [.glDeleteVertexArrays 2 [d.VAO 0, d.VAO 1],
   .glDeleteBuffers 2 [d.VBO 0, d.VBO 1],
   .glDeleteBuffers 1 [d.EBO],
   .glDeleteProgram d.shaderProgram,
   .glfwTerminate]

/-- `int main()`: the calls made, in order, and the exit code (`none` while
the frame loop is still running at the end of the given inputs). -/
def main {F : Type} (S : FloatSem F) (L : Libm F) (d : Driver F) (inputs : List FrameInput) :
    List (Call F) × Option ℤ :=
  let start : List (Call F) :=
    [.glfwInit,
     .glfwWindowHint .contextVersionMajor 3,
     .glfwWindowHint .contextVersionMinor 3,
     .glfwWindowHint .openglProfile GLFW_OPENGL_CORE_PROFILE,
     .glfwCreateWindow SCR_WIDTH SCR_HEIGHT]
  if !d.windowCreated then
    (start ++ [.cerr .windowFailed, .glfwTerminate], some (-1))
  else
    let context : List (Call F) :=
      [.glfwMakeContextCurrent, .glfwSetFramebufferSizeCallback, .gladLoadGLLoader]
    if !d.gladLoaded then
      (start ++ context ++ [.cerr .gladFailed], some (-1))
    else
      let loop := frameLoop S L d inputs false (Globals.init S) d.transformMatrix
      if loop.exited then
        (start ++ context ++ setup S d ++ loop.calls ++ teardown d, some 0)
      else
        (start ++ context ++ setup S d ++ loop.calls, none)

/-- A driver that hands out the object names 1, 2, 3, ... and the uniform
locations 0 and 1, with a zeroed `transformMatrix`. -/
def sampleDriver {F : Type} (S : FloatSem F) : Driver F where
  windowCreated := true
  gladLoaded := true
  vertexShader := 1
  fragmentShader := 2
  shaderProgram := 3
  VAO := ![1, 2]
  VBO := ![1, 2]
  EBO := 3
  transformLoc := 0
  colorLoc := 1
  transformMatrix := fun _ => S.lit 0.0

/-! ## Facts about the rounding -/

theorem roundTiesEven_intCast (n : ℤ) : roundTiesEven (n : ℚ) = n := by
  simp [roundTiesEven]

theorem round32_zero : round32 0 = some 0 := by
  simp [round32, roundTiesEven]

theorem ulpExp_le {q : ℚ} {e : ℤ} (hq : q ≠ 0) (h : |q| < 2 ^ (e + 24)) (he : -149 ≤ e) :
    ulpExp q ≤ e := by
  have hpos : 0 < |q| := abs_pos.mpr hq
  have hlog : Int.log 2 |q| < e + 24 := by
    have := (Int.lt_zpow_iff_log_lt (R := ℚ) (b := 2) (by norm_num) hpos).1 (by exact_mod_cast h)
    exact this
  unfold ulpExp
  exact max_le (by omega) he

theorem round32_of_grid (q : ℚ) (n : ℤ) (hn : q = n * 2 ^ ulpExp q) (hlt : |q| < 2 ^ (128 : ℕ)) :
    round32 q = some q := by
  have h2 : (2 : ℚ) ^ ulpExp q ≠ 0 := zpow_ne_zero _ (by norm_num)
  have hdiv : q / 2 ^ ulpExp q = n := by
    rw [div_eq_iff h2]; exact hn
  unfold round32
  simp only [hdiv, roundTiesEven_intCast]
  rw [← hn]
  simp [hlt]

theorem round32_exact (m e : ℤ) (he : -149 ≤ e) (hm : |m| < 2 ^ (24 : ℕ))
    (hlt : |(m : ℚ) * (2 : ℚ) ^ e| < 2 ^ (128 : ℕ)) :
    round32 ((m : ℚ) * (2 : ℚ) ^ e) = some ((m : ℚ) * (2 : ℚ) ^ e) := by
  by_cases hm0 : m = 0
  · subst hm0; simpa using round32_zero
  have h2pos : (0 : ℚ) < 2 ^ e := zpow_pos (by norm_num) _
  have hq : (m : ℚ) * 2 ^ e ≠ 0 := mul_ne_zero (by exact_mod_cast hm0) (ne_of_gt h2pos)
  have hbound : |(m : ℚ) * 2 ^ e| < 2 ^ (e + 24) := by
    rw [abs_mul, abs_of_pos h2pos, zpow_add₀ (by norm_num : (2 : ℚ) ≠ 0), mul_comm]
    have : |(m : ℚ)| < 2 ^ (24 : ℤ) := by
      have h1 : ((|m| : ℤ) : ℚ) < ((2 ^ (24 : ℕ) : ℤ) : ℚ) := by exact_mod_cast hm
      rw [Int.cast_abs] at h1
      norm_num at h1 ⊢
      exact h1
    exact mul_lt_mul_of_pos_left this h2pos
  have hE := ulpExp_le hq hbound he
  obtain ⟨k, hk⟩ := Int.eq_ofNat_of_zero_le (sub_nonneg.mpr hE)
  refine round32_of_grid _ (m * 2 ^ k) ?_ hlt
  have : (2 : ℚ) ^ e = 2 ^ (k : ℤ) * 2 ^ ulpExp ((m : ℚ) * 2 ^ e) := by
    rw [← zpow_add₀ (by norm_num : (2 : ℚ) ≠ 0), ← hk]; congr 1; ring
  push_cast
  rw [mul_assoc, ← zpow_natCast, ← this]

theorem round32_half_int (k : ℤ) (hk : |k| ≤ 2 ^ (24 : ℕ)) :
    round32 ((k : ℚ) / 2) = some ((k : ℚ) / 2) := by
  have hkq : |(k : ℚ)| ≤ 2 ^ (24 : ℕ) := by
    have h1 : ((|k| : ℤ) : ℚ) ≤ ((2 ^ (24 : ℕ) : ℤ) : ℚ) := by exact_mod_cast hk
    rw [Int.cast_abs] at h1
    norm_num at h1 ⊢
    exact h1
  rcases lt_or_eq_of_le hk with hlt | heq
  · have h := round32_exact k (-1) (by norm_num) hlt (by
      rw [abs_mul]
      have : |(2 : ℚ) ^ (-1 : ℤ)| = 1 / 2 := by norm_num
      rw [this]
      have h2 : (2 : ℚ) ^ (24 : ℕ) * (1 / 2) < 2 ^ (128 : ℕ) := by norm_num
      nlinarith [abs_nonneg (k : ℚ)])
    have e : (k : ℚ) * (2 : ℚ) ^ (-1 : ℤ) = (k : ℚ) / 2 := by
      rw [zpow_neg_one]; ring
    rwa [e] at h
  · rcases abs_eq (by norm_num : (0 : ℤ) ≤ 2 ^ (24 : ℕ)) |>.1 heq with h | h
    · have := round32_exact 1 23 (by norm_num) (by norm_num) (by norm_num)
      subst h
      norm_num at this ⊢
      exact this
    · have := round32_exact (-1) 23 (by norm_num) (by norm_num) (by norm_num)
      subst h
      norm_num at this ⊢
      exact this

theorem round32_int {n : ℤ} (hn : |n| < 2 ^ (24 : ℕ)) : round32 (n : ℚ) = some (n : ℚ) := by
  have hnq : |(n : ℚ)| < 2 ^ (24 : ℕ) := by
    have h1 : ((|n| : ℤ) : ℚ) < ((2 ^ (24 : ℕ) : ℤ) : ℚ) := by exact_mod_cast hn
    rw [Int.cast_abs] at h1
    norm_num at h1 ⊢
    exact h1
  have h := round32_exact n 0 (by norm_num) hn (by
    rw [zpow_zero, mul_one]
    exact lt_trans hnq (by norm_num))
  simpa using h

theorem log2_eq {r : ℚ} {e : ℤ} (hlo : (2 : ℚ) ^ e ≤ r) (hhi : r < 2 ^ (e + 1)) :
    Int.log 2 r = e := by
  have hpos : 0 < r := lt_of_lt_of_le (zpow_pos (by norm_num) _) hlo
  have h1 : e ≤ Int.log 2 r :=
    (Int.zpow_le_iff_le_log (R := ℚ) (b := 2) (by norm_num) hpos).1 (by exact_mod_cast hlo)
  have h2 : Int.log 2 r < e + 1 :=
    (Int.lt_zpow_iff_log_lt (R := ℚ) (b := 2) (by norm_num) hpos).1 (by exact_mod_cast hhi)
  omega

/-- The tie `8388608.5` lies halfway between the neighbours `8388608` and
`8388609` and goes to the even one. -/
theorem round32_tie : round32 (8388608 + 1 / 2) = some 8388608 := by
  have hlog : Int.log 2 |(8388608 + 1 / 2 : ℚ)| = 23 := by
    apply log2_eq <;> norm_num [abs_of_pos]
  have hfloor : ⌊(8388608 + 1 / 2 : ℚ)⌋ = 8388608 := by
    rw [Int.floor_eq_iff]; constructor <;> norm_num
  simp only [round32, ulpExp, hlog, roundTiesEven]
  norm_num [hfloor]

theorem binary32_lit_half : binary32.lit 0.5 = some (1 / 2) := by
  have := round32_half_int 1 (by norm_num)
  simp only [binary32]
  norm_num at this ⊢
  exact this

theorem binary32_lit_zero : binary32.lit 0.0 = some 0 := by
  simp only [binary32]
  norm_num
  exact round32_zero

theorem abs_roundTiesEven_sub_le (x : ℚ) : |(roundTiesEven x : ℚ) - x| ≤ 1 / 2 := by
  have h0 := Int.floor_le x
  have h1 := Int.lt_floor_add_one x
  unfold roundTiesEven
  simp only
  split_ifs with ha hb hc
  · rw [abs_le]; constructor <;> linarith
  · push_cast; rw [abs_le]; constructor <;> linarith
  · rw [abs_le]; constructor <;> linarith
  · push_cast; rw [abs_le]; constructor <;> linarith

/-- A finite result of `round32` is within half a unit in the last place of
the exact value. -/
theorem round32_error {q y : ℚ} (h : round32 q = some y) :
    |y - q| ≤ 2 ^ ulpExp q / 2 := by
  unfold round32 at h
  simp only at h
  split_ifs at h with hlt
  have hy := Option.some.inj h
  have h2 : (0 : ℚ) < 2 ^ ulpExp q := zpow_pos (by norm_num) _
  have hr := abs_roundTiesEven_sub_le (q / 2 ^ ulpExp q)
  have e : y - q = ((roundTiesEven (q / 2 ^ ulpExp q) : ℚ) - q / 2 ^ ulpExp q) * 2 ^ ulpExp q := by
    rw [← hy]; field_simp
  rw [e, abs_mul, abs_of_pos h2]
  calc |(roundTiesEven (q / 2 ^ ulpExp q) : ℚ) - q / 2 ^ ulpExp q| * 2 ^ ulpExp q
      ≤ 1 / 2 * 2 ^ ulpExp q := mul_le_mul_of_nonneg_right hr h2.le
    _ = 2 ^ ulpExp q / 2 := by ring

/-- In the normal range the result of `round32` has relative error at most
`2 ^ (-24)`. -/
theorem round32_relative_error {q y : ℚ} (hq : (2 : ℚ) ^ (-126 : ℤ) ≤ |q|)
    (h : round32 q = some y) : |y - q| ≤ |q| / 2 ^ (24 : ℕ) := by
  have hpos : 0 < |q| := lt_of_lt_of_le (zpow_pos (by norm_num) _) hq
  have hlog : (-126 : ℤ) ≤ Int.log 2 |q| :=
    (Int.zpow_le_iff_le_log (R := ℚ) (b := 2) (by norm_num) hpos).1 (by exact_mod_cast hq)
  have hE : ulpExp q = Int.log 2 |q| - 23 := by
    unfold ulpExp
    exact max_eq_left (by omega)
  have hle : (2 : ℚ) ^ Int.log 2 |q| ≤ |q| := by
    have := Int.zpow_log_le_self (R := ℚ) (b := 2) (by norm_num) hpos
    exact_mod_cast this
  have he := round32_error h
  rw [hE, zpow_sub₀ (by norm_num : (2 : ℚ) ≠ 0)] at he
  have h23 : (2 : ℚ) ^ (23 : ℤ) = 8388608 := by norm_num
  rw [h23] at he
  have : (2 : ℚ) ^ Int.log 2 |q| / 8388608 / 2 ≤ |q| / 2 ^ (24 : ℕ) := by
    have h24 : (2 : ℚ) ^ (24 : ℕ) = 16777216 := by norm_num
    rw [h24]
    linarith
  exact le_trans he this

theorem roundTiesEven_spec (x : ℚ) :
    |(roundTiesEven x : ℚ) - x| ≤ 1 / 2 ∧
      (|(roundTiesEven x : ℚ) - x| = 1 / 2 → roundTiesEven x % 2 = 0) := by
  refine ⟨abs_roundTiesEven_sub_le x, ?_⟩
  have h0 := Int.floor_le x
  have h1 := Int.lt_floor_add_one x
  unfold roundTiesEven
  simp only
  split_ifs with ha hb hc
  · intro h
    rw [abs_sub_comm, abs_of_nonneg (by linarith)] at h
    linarith
  · intro h
    push_cast at h
    rw [abs_of_nonneg (by linarith)] at h
    linarith
  · intro _; exact hc
  · intro _
    omega

/-- The nearest integer, ties to even, is determined by its defining property. -/
theorem roundTiesEven_unique (x : ℚ) (n : ℤ) (h : |(n : ℚ) - x| ≤ 1 / 2)
    (ht : |(n : ℚ) - x| = 1 / 2 → n % 2 = 0) : roundTiesEven x = n := by
  obtain ⟨hm, hmt⟩ := roundTiesEven_spec x
  set m := roundTiesEven x with hmdef
  have hmn : |((m - n : ℤ) : ℚ)| ≤ 1 := by
    have : ((m - n : ℤ) : ℚ) = ((m : ℚ) - x) - ((n : ℚ) - x) := by push_cast; ring
    rw [this]
    calc |((m : ℚ) - x) - ((n : ℚ) - x)| ≤ |(m : ℚ) - x| + |(n : ℚ) - x| := abs_sub _ _
      _ ≤ 1 := by linarith
  have hmn' : |m - n| ≤ 1 := by
    have : ((|m - n| : ℤ) : ℚ) ≤ 1 := by rw [Int.cast_abs]; exact hmn
    exact_mod_cast this
  by_contra hne
  have hd : |m - n| = 1 := by
    have : 0 < |m - n| := abs_pos.mpr (sub_ne_zero.mpr hne)
    omega
  have hq : |((m : ℚ) - x) - ((n : ℚ) - x)| = 1 := by
    have : ((m : ℚ) - x) - ((n : ℚ) - x) = ((m - n : ℤ) : ℚ) := by push_cast; ring
    rw [this, ← Int.cast_abs, hd]; norm_num
  have hs := abs_sub ((m : ℚ) - x) ((n : ℚ) - x)
  have e1 : |(m : ℚ) - x| = 1 / 2 := by linarith
  have e2 : |(n : ℚ) - x| = 1 / 2 := by linarith
  have p1 := hmt e1
  have p2 := ht e2
  rcases abs_eq (by norm_num : (0 : ℤ) ≤ 1) |>.1 hd with h | h <;> omega

theorem roundTiesEven_of_abs_lt (x : ℚ) (n : ℤ) (h : |x - (n : ℚ)| < 1 / 2) :
    roundTiesEven x = n := by
  rw [abs_sub_comm] at h
  exact roundTiesEven_unique x n h.le (fun e => absurd e (ne_of_lt h))

theorem roundTiesEven_neg (x : ℚ) : roundTiesEven (-x) = -roundTiesEven x := by
  obtain ⟨hm, hmt⟩ := roundTiesEven_spec x
  have e : ((-roundTiesEven x : ℤ) : ℚ) - -x = -((roundTiesEven x : ℚ) - x) := by
    push_cast; ring
  apply roundTiesEven_unique
  · rw [e, abs_neg]; exact hm
  · rw [e, abs_neg]
    intro h
    have := hmt h
    omega

theorem ulpExp_neg (q : ℚ) : ulpExp (-q) = ulpExp q := by
  simp [ulpExp]

/-- Rounding is symmetric: `round32 (-q)` is the negation of `round32 q`. -/
theorem round32_neg (q : ℚ) : round32 (-q) = (round32 q).map (fun y => -y) := by
  unfold round32
  simp only [ulpExp_neg, neg_div, roundTiesEven_neg]
  push_cast
  simp only [neg_mul, abs_neg]
  split_ifs <;> simp

/-- A multiple `n * 2 ^ e` of a power of two with at most 24 significant bits
and `e ≥ -149` is a binary32 number: rounding leaves it as it is. -/
theorem round32_grid (n e : ℤ) (hn : |n| ≤ 2 ^ (24 : ℕ)) (he : -149 ≤ e)
    (hfin : |(n : ℚ) * (2 : ℚ) ^ e| < 2 ^ (128 : ℕ)) :
    round32 ((n : ℚ) * (2 : ℚ) ^ e) = some ((n : ℚ) * (2 : ℚ) ^ e) := by
  rcases lt_or_eq_of_le hn with hlt | heq
  · exact round32_exact n e he hlt hfin
  · have h2 : (2 : ℚ) ^ (e + 24) = 2 ^ (24 : ℕ) * 2 ^ e := by
      rw [zpow_add₀ (by norm_num : (2 : ℚ) ≠ 0), mul_comm]; norm_num
    rcases abs_eq (by norm_num : (0 : ℤ) ≤ 2 ^ (24 : ℕ)) |>.1 heq with h | h
    · have e1 : (n : ℚ) * (2 : ℚ) ^ e = ((1 : ℤ) : ℚ) * (2 : ℚ) ^ (e + 24) := by
        rw [h2, h]; push_cast; ring
      rw [e1] at hfin ⊢
      exact round32_exact 1 (e + 24) (by omega) (by norm_num) hfin
    · have e1 : (n : ℚ) * (2 : ℚ) ^ e = ((-1 : ℤ) : ℚ) * (2 : ℚ) ^ (e + 24) := by
        rw [h2, h]; push_cast; ring
      rw [e1] at hfin ⊢
      exact round32_exact (-1) (e + 24) (by omega) (by norm_num) hfin

theorem abs_lt_zpow_log_succ (q : ℚ) : |q| < 2 ^ (Int.log 2 |q| + 1) := by
  have := Int.lt_zpow_succ_log_self (R := ℚ) (b := 2) (by norm_num) |q|
  exact_mod_cast this

theorem zpow_log_le_abs {q : ℚ} (hq : q ≠ 0) : (2 : ℚ) ^ Int.log 2 |q| ≤ |q| := by
  have := Int.zpow_log_le_self (R := ℚ) (b := 2) (by norm_num) (abs_pos.mpr hq)
  exact_mod_cast this

/-- The scaled significand has at most 24 bits. -/
theorem abs_roundTiesEven_scaled_le (q : ℚ) :
    |roundTiesEven (q / 2 ^ ulpExp q)| ≤ 2 ^ (24 : ℕ) := by
  have h2 : (0 : ℚ) < 2 ^ ulpExp q := zpow_pos (by norm_num) _
  have hx : |q / 2 ^ ulpExp q| < 2 ^ (24 : ℕ) := by
    rw [abs_div, abs_of_pos h2, div_lt_iff₀ h2]
    by_cases hq : q = 0
    · subst hq; simp; positivity
    · have h1 := abs_lt_zpow_log_succ q
      have hE : Int.log 2 |q| - 23 ≤ ulpExp q := le_max_left _ _
      have : (2 : ℚ) ^ (Int.log 2 |q| + 1) ≤ 2 ^ (24 : ℕ) * 2 ^ ulpExp q := by
        have e : (2 : ℚ) ^ (24 : ℕ) * 2 ^ ulpExp q = 2 ^ (ulpExp q + 24) := by
          rw [zpow_add₀ (by norm_num : (2 : ℚ) ≠ 0), mul_comm]; norm_num
        rw [e]
        exact zpow_le_zpow_right₀ (by norm_num) (by omega)
      exact lt_of_lt_of_le h1 this
  have hr := abs_roundTiesEven_sub_le (q / 2 ^ ulpExp q)
  have hq1 : |(roundTiesEven (q / 2 ^ ulpExp q) : ℚ)| < 2 ^ (24 : ℕ) + 1 := by
    have := abs_sub_abs_le_abs_sub (roundTiesEven (q / 2 ^ ulpExp q) : ℚ) (q / 2 ^ ulpExp q)
    linarith
  have hz : ((|roundTiesEven (q / 2 ^ ulpExp q)| : ℤ) : ℚ) < ((2 ^ (24 : ℕ) + 1 : ℤ) : ℚ) := by
    rw [Int.cast_abs]; push_cast; norm_num at hq1 ⊢; exact hq1
  have := Int.cast_lt.mp hz
  omega

theorem ulpExp_ge (q : ℚ) : -149 ≤ ulpExp q := le_max_right _ _

/-- A result of `round32` is a binary32 number: rounding it again changes
nothing. -/
theorem round32_idem {q y : ℚ} (h : round32 q = some y) : round32 y = some y := by
  unfold round32 at h
  simp only at h
  split_ifs at h with hlt
  have hy := Option.some.inj h
  rw [← hy]
  exact round32_grid _ _ (abs_roundTiesEven_scaled_le q) (ulpExp_ge q) hlt

/-- Every result of rounding is within a relative `2 ^ (-24)` plus the
subnormal half-step `2 ^ (-150)` of the exact value. -/
theorem round32_abs_error {q y : ℚ} (h : round32 q = some y) :
    |y - q| ≤ |q| / 2 ^ (24 : ℕ) + 1 / 2 ^ (150 : ℕ) := by
  by_cases hq : q = 0
  · subst hq
    rw [round32_zero] at h
    have := Option.some.inj h
    subst this
    simp
  have he := round32_error h
  have hle := zpow_log_le_abs hq
  have hnn : (0 : ℚ) ≤ |q| / 2 ^ (24 : ℕ) := by positivity
  have hnn2 : (0 : ℚ) ≤ 1 / 2 ^ (150 : ℕ) := by positivity
  rcases le_total (Int.log 2 |q| - 23) (-149) with hc | hc
  · have hE : ulpExp q = -149 := by unfold ulpExp; exact max_eq_right hc
    rw [hE] at he
    have : (2 : ℚ) ^ (-149 : ℤ) / 2 = 1 / 2 ^ (150 : ℕ) := by
      rw [zpow_neg]; norm_num
    linarith
  · have hE : ulpExp q = Int.log 2 |q| - 23 := by unfold ulpExp; exact max_eq_left hc
    rw [hE, zpow_sub₀ (by norm_num : (2 : ℚ) ≠ 0)] at he
    have h23 : (2 : ℚ) ^ (23 : ℤ) = 8388608 := by norm_num
    have h24 : (2 : ℚ) ^ (24 : ℕ) = 16777216 := by norm_num
    rw [h23] at he
    rw [h24]
    have : (2 : ℚ) ^ Int.log 2 |q| / 8388608 / 2 ≤ |q| / 16777216 := by linarith
    linarith

/-- An exact value of magnitude at most `2 ^ 127` rounds to a finite number. -/
theorem round32_finite {q : ℚ} (hq : |q| ≤ 2 ^ (127 : ℕ)) :
    ∃ y : ℚ, round32 q = some y ∧ |y - q| ≤ |q| / 2 ^ (24 : ℕ) + 1 / 2 ^ (150 : ℕ) := by
  have h2 : (0 : ℚ) < 2 ^ ulpExp q := zpow_pos (by norm_num) _
  set y : ℚ := (roundTiesEven (q / 2 ^ ulpExp q) : ℚ) * 2 ^ ulpExp q with hy
  have hr := abs_roundTiesEven_sub_le (q / 2 ^ ulpExp q)
  have e : y - q = ((roundTiesEven (q / 2 ^ ulpExp q) : ℚ) - q / 2 ^ ulpExp q) * 2 ^ ulpExp q := by
    rw [hy]; field_simp
  have herr : |y - q| ≤ 2 ^ ulpExp q / 2 := by
    rw [e, abs_mul, abs_of_pos h2]
    calc |(roundTiesEven (q / 2 ^ ulpExp q) : ℚ) - q / 2 ^ ulpExp q| * 2 ^ ulpExp q
        ≤ 1 / 2 * 2 ^ ulpExp q := mul_le_mul_of_nonneg_right hr h2.le
      _ = 2 ^ ulpExp q / 2 := by ring
  have hulp : (2 : ℚ) ^ ulpExp q ≤ 2 ^ (104 : ℕ) := by
    have hE : ulpExp q ≤ 104 := by
      unfold ulpExp
      refine max_le ?_ (by norm_num)
      by_cases hq0 : q = 0
      · subst hq0; simp
      · have hlog : Int.log 2 |q| < 127 + 1 := by
          refine (Int.lt_zpow_iff_log_lt (R := ℚ) (b := 2) (by norm_num) (abs_pos.mpr hq0)).1 ?_
          have : |q| < (2 : ℚ) ^ (128 : ℕ) := lt_of_le_of_lt hq (by norm_num)
          exact_mod_cast this
        omega
    have := zpow_le_zpow_right₀ (a := (2 : ℚ)) (by norm_num) hE
    exact_mod_cast this
  have hfin : |y| < 2 ^ (128 : ℕ) := by
    have h1 := abs_sub_abs_le_abs_sub y q
    have h3 : (2 : ℚ) ^ (127 : ℕ) + 2 ^ (104 : ℕ) / 2 < 2 ^ (128 : ℕ) := by norm_num
    linarith
  have hround : round32 q = some y := by
    unfold round32
    simp only
    rw [← hy, if_pos hfin]
  exact ⟨y, hround, round32_abs_error hround⟩

/-- Evaluation of `round32` at a value in the normal range: with
`2 ^ l ≤ |q| < 2 ^ (l + 1)` and `n` the integer within one half of
`q / 2 ^ (l - 23)`, the result is `n * 2 ^ (l - 23)`. -/
theorem round32_eval (q : ℚ) (l n : ℤ) (hlo : (2 : ℚ) ^ l ≤ |q|) (hhi : |q| < 2 ^ (l + 1))
    (hl : -126 ≤ l) (hn : |q / 2 ^ (l - 23) - (n : ℚ)| < 1 / 2)
    (hfin : |(n : ℚ) * (2 : ℚ) ^ (l - 23)| < 2 ^ (128 : ℕ)) :
    round32 q = some ((n : ℚ) * (2 : ℚ) ^ (l - 23)) := by
  have hlog : Int.log 2 |q| = l := log2_eq hlo hhi
  have hE : ulpExp q = l - 23 := by
    unfold ulpExp
    rw [hlog]
    exact max_eq_left (by omega)
  unfold round32
  simp only [hE, roundTiesEven_of_abs_lt _ n hn, if_pos hfin]

/-! ## The correctly rounded libm conforms -/

theorem abs_roundTiesEvenR_sub_le (x : ℝ) : |(roundTiesEvenR x : ℝ) - x| ≤ 1 / 2 := by
  have h0 := Int.floor_le x
  have h1 := Int.lt_floor_add_one x
  unfold roundTiesEvenR
  simp only
  split_ifs with ha hb hc
  · rw [abs_le]; constructor <;> linarith
  · push_cast; rw [abs_le]; constructor <;> linarith
  · rw [abs_le]; constructor <;> linarith
  · push_cast; rw [abs_le]; constructor <;> linarith

theorem roundTiesEvenR_intCast (n : ℤ) : roundTiesEvenR (n : ℝ) = n := by
  simp [roundTiesEvenR]

theorem round32R_zero : round32R 0 = some 0 := by
  have h : roundTiesEvenR (0 : ℝ) = 0 := by
    exact_mod_cast roundTiesEvenR_intCast 0
  simp [round32R, h]

theorem round32R_one : round32R 1 = some 1 := by
  have hE : ulpExpR 1 = -23 := by
    simp [ulpExpR]
  have hx : (1 : ℝ) / 2 ^ (-23 : ℤ) = ((8388608 : ℤ) : ℝ) := by
    rw [zpow_neg]; norm_num
  have hv : ((8388608 : ℤ) : ℚ) * 2 ^ (-23 : ℤ) = 1 := by
    rw [zpow_neg]; norm_num
  unfold round32R
  simp only [hE, hx, roundTiesEvenR_intCast, hv]
  norm_num

/-- A real number of magnitude at most 1 rounds to a binary32 number within
`2 ^ (-24)` of it. -/
theorem round32R_unit {y : ℝ} (hy : |y| ≤ 1) :
    ∃ c : ℚ, round32R y = some c ∧ round32 c = some c ∧ |(c : ℝ) - y| ≤ 1 / 2 ^ (24 : ℕ) := by
  have h2 : (0 : ℝ) < 2 ^ ulpExpR y := zpow_pos (by norm_num) _
  have hElo : -149 ≤ ulpExpR y := le_max_right _ _
  have hEhi : ulpExpR y ≤ -23 := by
    unfold ulpExpR
    refine max_le ?_ (by norm_num)
    by_cases h0 : y = 0
    · subst h0; simp
    · have hlog : Int.log 2 |y| < 0 + 1 := by
        refine (Int.lt_zpow_iff_log_lt (R := ℝ) (b := 2) (by norm_num) (abs_pos.mpr h0)).1 ?_
        have : |y| < (2 : ℝ) ^ ((0 : ℤ) + 1) := by norm_num; linarith
        exact_mod_cast this
      omega
  set n : ℤ := roundTiesEvenR (y / 2 ^ ulpExpR y) with hn
  have hr := abs_roundTiesEvenR_sub_le (y / 2 ^ ulpExpR y)
  rw [← hn] at hr
  -- the scaled value has fewer than 24 bits before the point
  have hx : |y / 2 ^ ulpExpR y| < 2 ^ (24 : ℕ) := by
    rw [abs_div, abs_of_pos h2, div_lt_iff₀ h2]
    have h1 : |y| < (2 : ℝ) ^ (Int.log 2 |y| + 1) := by
      have := Int.lt_zpow_succ_log_self (R := ℝ) (b := 2) (by norm_num) |y|
      exact_mod_cast this
    have hE : Int.log 2 |y| - 23 ≤ ulpExpR y := le_max_left _ _
    have : (2 : ℝ) ^ (Int.log 2 |y| + 1) ≤ 2 ^ (24 : ℕ) * 2 ^ ulpExpR y := by
      have e : (2 : ℝ) ^ (24 : ℕ) * 2 ^ ulpExpR y = 2 ^ (ulpExpR y + 24) := by
        rw [zpow_add₀ (by norm_num : (2 : ℝ) ≠ 0), mul_comm]; norm_num
      rw [e]
      exact zpow_le_zpow_right₀ (by norm_num) (by omega)
    exact lt_of_lt_of_le h1 this
  have hnle : |n| ≤ 2 ^ (24 : ℕ) := by
    have hq1 : |(n : ℝ)| < 2 ^ (24 : ℕ) + 1 := by
      have := abs_sub_abs_le_abs_sub (n : ℝ) (y / 2 ^ ulpExpR y)
      linarith
    have hz : ((|n| : ℤ) : ℝ) < ((2 ^ (24 : ℕ) + 1 : ℤ) : ℝ) := by
      rw [Int.cast_abs]; push_cast; norm_num at hq1 ⊢; exact hq1
    have := Int.cast_lt.mp hz
    omega
  set c : ℚ := (n : ℚ) * 2 ^ ulpExpR y with hc
  have hcR : (c : ℝ) = (n : ℝ) * 2 ^ ulpExpR y := by
    rw [hc]; push_cast; rfl
  have herr : |(c : ℝ) - y| ≤ 2 ^ ulpExpR y / 2 := by
    have e : (c : ℝ) - y = ((n : ℝ) - y / 2 ^ ulpExpR y) * 2 ^ ulpExpR y := by
      rw [hcR]; field_simp
    rw [e, abs_mul, abs_of_pos h2]
    calc |(n : ℝ) - y / 2 ^ ulpExpR y| * 2 ^ ulpExpR y
        ≤ 1 / 2 * 2 ^ ulpExpR y := mul_le_mul_of_nonneg_right hr h2.le
      _ = 2 ^ ulpExpR y / 2 := by ring
  have hulp : (2 : ℝ) ^ ulpExpR y ≤ 2 ^ (-23 : ℤ) := zpow_le_zpow_right₀ (by norm_num) hEhi
  have h23 : (2 : ℝ) ^ (-23 : ℤ) / 2 = 1 / 2 ^ (24 : ℕ) := by
    rw [zpow_neg]; norm_num
  have herr' : |(c : ℝ) - y| ≤ 1 / 2 ^ (24 : ℕ) := by
    calc |(c : ℝ) - y| ≤ 2 ^ ulpExpR y / 2 := herr
      _ ≤ 2 ^ (-23 : ℤ) / 2 := by
          exact div_le_div_of_nonneg_right hulp (by norm_num)
      _ = 1 / 2 ^ (24 : ℕ) := h23
  have hcabs : |(c : ℝ)| < 2 := by
    have := abs_sub_abs_le_abs_sub (c : ℝ) y
    have : (1 : ℝ) / 2 ^ (24 : ℕ) < 1 := by norm_num
    linarith
  have hfin : |c| < 2 ^ (128 : ℕ) := by
    have : ((|c| : ℚ) : ℝ) < ((2 : ℚ) : ℝ) := by
      rw [Rat.cast_abs]; exact_mod_cast hcabs
    have h2' : |c| < 2 := by exact_mod_cast this
    exact lt_trans h2' (by norm_num)
  refine ⟨c, ?_, ?_, herr'⟩
  · unfold round32R
    simp only
    rw [← hn, ← hc, if_pos hfin]
  · rw [hc] at hfin ⊢
    exact round32_grid n _ hnle hElo hfin

theorem crLibm_conforming : crLibm.Conforming where
  cosf_none := rfl
  sinf_none := rfl
  cosf_zero := by
    show round32R (Real.cos ((0 : ℚ) : ℝ)) = some 1
    rw [Rat.cast_zero, Real.cos_zero]
    exact round32R_one
  sinf_zero := by
    show round32R (Real.sin ((0 : ℚ) : ℝ)) = some 0
    rw [Rat.cast_zero, Real.sin_zero]
    exact round32R_zero
  cosf_some := fun x => round32R_unit (Real.abs_cos_le_one _)
  sinf_some := fun x => round32R_unit (Real.abs_sin_le_one _)

/-! ## The binary32 operations on finite values -/

theorem binary32_add_some (a b : ℚ) : binary32.add (some a) (some b) = round32 (a + b) := rfl

theorem binary32_sub_some (a b : ℚ) : binary32.sub (some a) (some b) = round32 (a - b) := rfl

theorem binary32_mul_some (a b : ℚ) : binary32.mul (some a) (some b) = round32 (a * b) := rfl

theorem binary32_div_some (a : ℚ) {b : ℚ} (hb : b ≠ 0) :
    binary32.div (some a) (some b) = round32 (a / b) := by
  show (if b = 0 then none else round32 (a / b)) = round32 (a / b)
  rw [if_neg hb]

theorem binary32_neg_some (a : ℚ) : binary32.neg (some a) = some (-a) := rfl

theorem binary32_lit_one : binary32.lit 1.0 = some 1 := by
  have e : (1.0 : ℚ) = ((1 : ℤ) : ℚ) := by norm_num
  show round32 (1.0 : ℚ) = some 1
  rw [e]
  simpa using round32_int (n := 1) (by norm_num)

theorem binary32_lit_90 : binary32.lit 90.0 = some 90 := by
  have e : (90.0 : ℚ) = ((90 : ℤ) : ℚ) := by norm_num
  show round32 (90.0 : ℚ) = some 90
  rw [e]
  simpa using round32_int (n := 90) (by norm_num)

theorem binary32_lit_pi : binary32.lit 3.1415926 = some (6588397 / 2097152) := by
  have e : (3.1415926 : ℚ) = 31415926 / 10000000 := by norm_num
  show round32 (3.1415926 : ℚ) = some (6588397 / 2097152)
  rw [e]
  have h := round32_eval (31415926 / 10000000) 1 13176794
    (by norm_num [abs_of_pos]) (by norm_num [abs_of_pos]) (by norm_num)
    (by norm_num [zpow_neg, abs_of_pos]) (by norm_num [zpow_neg, abs_of_pos])
  rw [h]
  norm_num [zpow_neg]

theorem binary32_lit_180 : binary32.lit 180.0 = some 180 := by
  have e : (180.0 : ℚ) = ((180 : ℤ) : ℚ) := by norm_num
  show round32 (180.0 : ℚ) = some 180
  rw [e]
  simpa using round32_int (n := 180) (by norm_num)

/-! ## The angle `roll * 3.1415926f / 180.0f` in binary32 -/

/-- The float angle: the product with the float constant is rounded, then the
quotient by 180 is rounded. -/
theorem radians_binary32 (r : ℚ) :
    radians binary32 (some r) =
      (round32 (r * (6588397 / 2097152))).bind fun u => round32 (u / 180) := by
  simp only [radians, binary32_lit_pi, binary32_lit_180, binary32_mul_some]
  rcases round32 (r * (6588397 / 2097152)) with _ | u
  · rfl
  · exact binary32_div_some u (by norm_num)

theorem radians_binary32_zero : radians binary32 (some 0) = some 0 := by
  rw [radians_binary32, zero_mul, round32_zero]
  show round32 (0 / 180) = some 0
  rw [zero_div]; exact round32_zero

/-- For roll 90 the float angle is `6588397 / 4194304 = 1.5707962513...`. -/
theorem radians_binary32_90 : radians binary32 (some 90) = some (6588397 / 4194304) := by
  have h1 : round32 ((90 : ℚ) * (6588397 / 2097152)) = some (9264933 / 32768) := by
    have h := round32_eval ((90 : ℚ) * (6588397 / 2097152)) 8 9264933
      (by norm_num [abs_of_pos]) (by norm_num [abs_of_pos]) (by norm_num)
      (by norm_num [zpow_neg, abs_of_pos]) (by norm_num [zpow_neg, abs_of_pos])
    rw [h]; norm_num [zpow_neg]
  have h2 : round32 ((9264933 / 32768 : ℚ) / 180) = some (6588397 / 4194304) := by
    have h := round32_eval ((9264933 / 32768 : ℚ) / 180) 0 13176794
      (by norm_num [abs_of_pos]) (by norm_num [abs_of_pos]) (by norm_num)
      (by norm_num [zpow_neg, abs_of_pos]) (by norm_num [zpow_neg, abs_of_pos])
    rw [h]; norm_num [zpow_neg]
  rw [radians_binary32, h1]
  exact h2

/-- For roll 360 the float angle is `6588397 / 1048576 = 6.2831850051...`. -/
theorem radians_binary32_360 : radians binary32 (some 360) = some (6588397 / 1048576) := by
  have h1 : round32 ((360 : ℚ) * (6588397 / 2097152)) = some (9264933 / 8192) := by
    have h := round32_eval ((360 : ℚ) * (6588397 / 2097152)) 10 9264933
      (by norm_num [abs_of_pos]) (by norm_num [abs_of_pos]) (by norm_num)
      (by norm_num [zpow_neg, abs_of_pos]) (by norm_num [zpow_neg, abs_of_pos])
    rw [h]; norm_num [zpow_neg]
  have h2 : round32 ((9264933 / 8192 : ℚ) / 180) = some (6588397 / 1048576) := by
    have h := round32_eval ((9264933 / 8192 : ℚ) / 180) 2 13176794
      (by norm_num [abs_of_pos]) (by norm_num [abs_of_pos]) (by norm_num)
      (by norm_num [zpow_neg, abs_of_pos]) (by norm_num [zpow_neg, abs_of_pos])
    rw [h]; norm_num [zpow_neg]
  rw [radians_binary32, h1]
  exact h2

/-- For the finite roll `2 ^ 127` the product with the constant overflows: the
angle is not a finite number. -/
theorem radians_binary32_overflow : radians binary32 (some (2 ^ (127 : ℕ))) = none := by
  have h1 : round32 ((2 : ℚ) ^ (127 : ℕ) * (6588397 / 2097152)) = none := by
    have hlog : Int.log 2 |(2 : ℚ) ^ (127 : ℕ) * (6588397 / 2097152)| = 128 := by
      apply log2_eq <;> norm_num [abs_of_pos]
    have hE : ulpExp ((2 : ℚ) ^ (127 : ℕ) * (6588397 / 2097152)) = 105 := by
      unfold ulpExp; rw [hlog]; norm_num
    have hq : (2 : ℚ) ^ (127 : ℕ) * (6588397 / 2097152) / 2 ^ (105 : ℤ) =
        ((13176794 : ℤ) : ℚ) := by norm_num
    unfold round32
    simp only [hE, hq, roundTiesEven_intCast]
    norm_num [abs_of_pos]
  rw [radians_binary32, h1]
  rfl

/-- For every roll of magnitude at most `2 ^ 24` (the program reaches `2 ^ 23`) the float
angle is finite and within a relative `2.09 / 10 ^ 9` of `r * c / 180`, where
`c = 6588397 / 2097152` is the float constant. -/
theorem radians_binary32_error {r : ℚ} (hr : |r| ≤ 2 ^ (24 : ℕ)) :
    ∃ θ : ℚ, radians binary32 (some r) = some θ ∧
      |θ - r * (6588397 / 2097152) / 180| ≤ |r| * (209 / 10 ^ 11) + 1 / 10 ^ 40 := by
  have hr' : |r| ≤ 16777216 := by norm_num at hr; exact hr
  have hrc : |r * (6588397 / 2097152)| = |r| * (6588397 / 2097152) := by
    rw [abs_mul, abs_of_pos (by norm_num : (0 : ℚ) < 6588397 / 2097152)]
  have hnn := abs_nonneg r
  obtain ⟨u, hu, hue⟩ := round32_finite (q := r * (6588397 / 2097152)) (by
    rw [hrc]
    have : (16777216 : ℚ) * (6588397 / 2097152) ≤ 2 ^ (127 : ℕ) := by norm_num
    nlinarith)
  have huabs : |u| ≤ |r| * (6588397 / 2097152) * (1 + 1 / 2 ^ (24 : ℕ)) + 1 / 2 ^ (150 : ℕ) := by
    have := abs_sub_abs_le_abs_sub u (r * (6588397 / 2097152))
    rw [hrc] at this hue
    linarith
  obtain ⟨θ, hθ, hθe⟩ := round32_finite (q := u / 180) (by
    rw [abs_div, abs_of_pos (by norm_num : (0 : ℚ) < 180)]
    have h1 : |u| ≤ 16777216 * (6588397 / 2097152) * (1 + 1 / 2 ^ (24 : ℕ)) + 1 / 2 ^ (150 : ℕ) := by
      have : |r| * (6588397 / 2097152) * (1 + 1 / 2 ^ (24 : ℕ)) ≤
          16777216 * (6588397 / 2097152) * (1 + 1 / 2 ^ (24 : ℕ)) := by
        apply mul_le_mul_of_nonneg_right _ (by norm_num)
        exact mul_le_mul_of_nonneg_right hr' (by norm_num)
      linarith
    have h2 : (16777216 * (6588397 / 2097152) * (1 + 1 / 2 ^ (24 : ℕ)) + 1 / 2 ^ (150 : ℕ)) / 180
        ≤ (2 : ℚ) ^ (127 : ℕ) := by norm_num
    calc |u| / 180 ≤ (16777216 * (6588397 / 2097152) * (1 + 1 / 2 ^ (24 : ℕ))
          + 1 / 2 ^ (150 : ℕ)) / 180 := div_le_div_of_nonneg_right h1 (by norm_num)
      _ ≤ 2 ^ (127 : ℕ) := h2)
  refine ⟨θ, ?_, ?_⟩
  · rw [radians_binary32, hu]; exact hθ
  · rw [abs_div, abs_of_pos (by norm_num : (0 : ℚ) < 180)] at hθe
    rw [hrc] at hue
    have hsplit : θ - r * (6588397 / 2097152) / 180 =
        (θ - u / 180) + (u - r * (6588397 / 2097152)) / 180 := by ring
    have h1 : |(u - r * (6588397 / 2097152)) / 180| ≤
        (|r| * (6588397 / 2097152) / 2 ^ (24 : ℕ) + 1 / 2 ^ (150 : ℕ)) / 180 := by
      rw [abs_div, abs_of_pos (by norm_num : (0 : ℚ) < 180)]
      exact div_le_div_of_nonneg_right hue (by norm_num)
    have h2 : |u| / 180 / 2 ^ (24 : ℕ) ≤
        (|r| * (6588397 / 2097152) * (1 + 1 / 2 ^ (24 : ℕ)) + 1 / 2 ^ (150 : ℕ)) / 180
          / 2 ^ (24 : ℕ) := by
      apply div_le_div_of_nonneg_right _ (by norm_num)
      exact div_le_div_of_nonneg_right huabs (by norm_num)
    have h3 := abs_add (θ - u / 180) ((u - r * (6588397 / 2097152)) / 180)
    rw [hsplit]
    have hfinal : (|r| * (6588397 / 2097152) * (1 + 1 / 2 ^ (24 : ℕ)) + 1 / 2 ^ (150 : ℕ)) / 180
          / 2 ^ (24 : ℕ) + 1 / 2 ^ (150 : ℕ)
        + (|r| * (6588397 / 2097152) / 2 ^ (24 : ℕ) + 1 / 2 ^ (150 : ℕ)) / 180
        ≤ |r| * (209 / 10 ^ 11) + 1 / 10 ^ 40 := by
      have : (0 : ℚ) ≤ |r| := hnn
      norm_num
      linarith
    linarith

/-! ## The transform builder -/

/-- The copy loop overwrites all sixteen entries: whatever the buffer held
before, after the call it holds `mat`. -/
theorem createTransformMatrix_eq_mat {F : Type} (S : FloatSem F) (L : Libm F) (p r : F)
    (out : Fin 16 → F) : createTransformMatrix S L p r out = mat S L p r := by
  funext i
  fin_cases i <;> rfl

/-- The matrix in binary32, entry by entry. -/
theorem createTransformMatrix_binary32 (L : Libm (Option ℚ)) (p r : Option ℚ)
    (out : Fin 16 → Option ℚ) :
    createTransformMatrix binary32 L p r out =
      ![L.cosf (radians binary32 r), L.sinf (radians binary32 r), some 0, some 0,
        binary32.neg (L.sinf (radians binary32 r)), L.cosf (radians binary32 r), some 0, some 0,
        some 0, some 0, some 1, some 0,
        some 0, binary32.div p (some 90), some 0, some 1] := by
  rw [createTransformMatrix_eq_mat]
  simp only [mat, cosA, sinA, translateY, binary32_lit_zero, binary32_lit_one, binary32_lit_90]

/-- With a conforming libm and a finite angle `θ`, the four entries of the
rotation block are finite floats `c, s, -s, c` with `c` within `2 ^ (-24)` of
`cos θ` and `s` within `2 ^ (-24)` of `sin θ`. -/
theorem rotation_entries {L : Libm (Option ℚ)} (hL : L.Conforming) (p r : Option ℚ)
    (out : Fin 16 → Option ℚ) {θ : ℚ} (hθ : radians binary32 r = some θ) :
    ∃ c s : ℚ,
      createTransformMatrix binary32 L p r out 0 = some c ∧
      createTransformMatrix binary32 L p r out 1 = some s ∧
      createTransformMatrix binary32 L p r out 4 = some (-s) ∧
      createTransformMatrix binary32 L p r out 5 = some c ∧
      round32 c = some c ∧ round32 s = some s ∧
      |(c : ℝ) - Real.cos θ| ≤ 1 / 2 ^ (24 : ℕ) ∧
      |(s : ℝ) - Real.sin θ| ≤ 1 / 2 ^ (24 : ℕ) := by
  obtain ⟨c, hc, hcf, hce⟩ := hL.cosf_some θ
  obtain ⟨s, hs, hsf, hse⟩ := hL.sinf_some θ
  refine ⟨c, s, ?_, ?_, ?_, ?_, hcf, hsf, hce, hse⟩
  · rw [createTransformMatrix_binary32, hθ]; exact hc
  · rw [createTransformMatrix_binary32, hθ]; exact hs
  · rw [createTransformMatrix_binary32, hθ]
    show binary32.neg (L.sinf (some θ)) = some (-s)
    rw [hs]; rfl
  · rw [createTransformMatrix_binary32, hθ]; exact hc

/-! ## Trigonometric facts at the float angles -/

theorem abs_cos_sub_cos_le (a b : ℝ) : |Real.cos a - Real.cos b| ≤ |a - b| := by
  rw [Real.cos_sub_cos, abs_mul, abs_mul]
  have h1 : |Real.sin ((a + b) / 2)| ≤ 1 := Real.abs_sin_le_one _
  have h2 : |Real.sin ((a - b) / 2)| ≤ |(a - b) / 2| := Real.abs_sin_le_abs
  have h3 : |(a - b) / 2| = |a - b| / 2 := by rw [abs_div]; norm_num
  have h4 : |(-2 : ℝ)| = 2 := by norm_num
  rw [h4]
  have h5 := abs_nonneg (Real.sin ((a + b) / 2))
  have h6 := abs_nonneg (Real.sin ((a - b) / 2))
  nlinarith

theorem abs_sin_sub_sin_le (a b : ℝ) : |Real.sin a - Real.sin b| ≤ |a - b| := by
  rw [Real.sin_sub_sin, abs_mul, abs_mul]
  have h1 : |Real.cos ((a + b) / 2)| ≤ 1 := Real.abs_cos_le_one _
  have h2 : |Real.sin ((a - b) / 2)| ≤ |(a - b) / 2| := Real.abs_sin_le_abs
  have h3 : |(a - b) / 2| = |a - b| / 2 := by rw [abs_div]; norm_num
  have h4 : |(2 : ℝ)| = 2 := by norm_num
  rw [h4]
  have h5 := abs_nonneg (Real.cos ((a + b) / 2))
  have h6 := abs_nonneg (Real.sin ((a - b) / 2))
  nlinarith

/-- The float constant `3.1415926f = 6588397 / 2097152` is below pi by between
`1.509 / 10 ^ 7` and `1.511 / 10 ^ 7`. -/
theorem pi_sub_const :
    1509 / 10 ^ 10 < Real.pi - 6588397 / 2097152 ∧
      Real.pi - 6588397 / 2097152 < 1511 / 10 ^ 10 := by
  have h1 := Real.pi_gt_d20
  have h2 := Real.pi_lt_d20
  constructor <;> norm_num at h1 h2 ⊢ <;> linarith

/-- The float angle for roll 90 is short of a quarter turn by `d`, with
`7.54 / 10 ^ 8 < d < 7.56 / 10 ^ 8`. -/
theorem quarter_turn :
    ∃ d : ℝ, 754 / 10 ^ 10 < d ∧ d < 756 / 10 ^ 10 ∧
      (((6588397 / 4194304 : ℚ)) : ℝ) = Real.pi / 2 - d := by
  obtain ⟨h1, h2⟩ := pi_sub_const
  refine ⟨(Real.pi - 6588397 / 2097152) / 2, by linarith, by linarith, ?_⟩
  push_cast; ring

theorem cos_quarter_turn :
    75 / 10 ^ 9 < Real.cos (((6588397 / 4194304 : ℚ)) : ℝ) ∧
      Real.cos (((6588397 / 4194304 : ℚ)) : ℝ) < 756 / 10 ^ 10 := by
  obtain ⟨d, hd0, hd1, hd⟩ := quarter_turn
  rw [hd, Real.cos_pi_div_two_sub]
  have hdpos : 0 < d := lt_trans (by norm_num) hd0
  refine ⟨?_, lt_trans (Real.sin_lt hdpos) hd1⟩
  have h := Real.sin_gt_sub_cube hdpos (by linarith)
  have h3 : d ^ 3 / 4 < 1 / 10 ^ 10 := by
    have hd2 : d ^ 2 < 1 := by nlinarith
    have : d ^ 3 = d * d ^ 2 := by ring
    rw [this]
    nlinarith
  linarith

theorem sin_quarter_turn :
    1 - 1 / 10 ^ 9 ≤ Real.sin (((6588397 / 4194304 : ℚ)) : ℝ) ∧
      Real.sin (((6588397 / 4194304 : ℚ)) : ℝ) ≤ 1 := by
  obtain ⟨d, hd0, hd1, hd⟩ := quarter_turn
  rw [hd, Real.sin_pi_div_two_sub]
  refine ⟨?_, Real.cos_le_one d⟩
  have h := Real.one_sub_sq_div_two_le_cos (x := d)
  have hdpos : 0 < d := lt_trans (by norm_num) hd0
  have : d ^ 2 / 2 ≤ 1 / 10 ^ 9 := by nlinarith
  linarith

/-- The float angle for roll 360 is short of a full turn: its sine is below
`-3 / 10 ^ 7`. -/
theorem sin_full_turn : Real.sin (((6588397 / 1048576 : ℚ)) : ℝ) < -(3 / 10 ^ 7) := by
  obtain ⟨h1, h2⟩ := pi_sub_const
  have hpi := Real.pi_gt_three
  set d : ℝ := 2 * (Real.pi - 6588397 / 2097152) with hd
  have e : (((6588397 / 1048576 : ℚ)) : ℝ) = -d + 2 * Real.pi := by
    rw [hd]; push_cast; ring
  have hd0 : 3018 / 10 ^ 10 < d := by rw [hd]; linarith
  have hd1 : d < 3022 / 10 ^ 10 := by rw [hd]; linarith
  have hdpos : 0 < d := lt_trans (by norm_num) hd0
  rw [e, Real.sin_add_two_pi, Real.sin_neg]
  have h := Real.sin_gt_sub_cube hdpos (by linarith)
  have h3 : d ^ 3 / 4 < 1 / 10 ^ 10 := by
    have hd2 : d ^ 2 < 1 := by nlinarith
    have : d ^ 3 = d * d ^ 2 := by ring
    rw [this]
    nlinarith
  linarith

/-- For roll 90 and any conforming libm the first column of the matrix is a
pair of floats `(c, s)` with `0 < c ≤ 10 ^ (-6)` and `|s - 1| ≤ 10 ^ (-6)`. -/
theorem column_at_roll_90 {L : Libm (Option ℚ)} (hL : L.Conforming) (p : Option ℚ)
    (out : Fin 16 → Option ℚ) :
    ∃ c s : ℚ,
      createTransformMatrix binary32 L p (some 90) out 0 = some c ∧
      createTransformMatrix binary32 L p (some 90) out 1 = some s ∧
      0 < c ∧ c ≤ 1 / 10 ^ 6 ∧ |s - 1| ≤ 1 / 10 ^ 6 := by
  obtain ⟨c, s, h0, h1, -, -, -, -, hce, hse⟩ :=
    rotation_entries hL p (some 90) out radians_binary32_90
  obtain ⟨hclo, hchi⟩ := cos_quarter_turn
  obtain ⟨hslo, hshi⟩ := sin_quarter_turn
  rw [abs_le] at hce hse
  have h24 : (1 : ℝ) / 2 ^ (24 : ℕ) < 597 / 10 ^ 10 := by norm_num
  have hcpos : (0 : ℝ) < (c : ℝ) := by
    have : (75 : ℝ) / 10 ^ 9 - 597 / 10 ^ 10 > 0 := by norm_num
    linarith
  have hcle : (c : ℝ) ≤ 1 / 10 ^ 6 := by
    have : (756 : ℝ) / 10 ^ 10 + 597 / 10 ^ 10 ≤ 1 / 10 ^ 6 := by norm_num
    linarith
  have hs1 : |(s : ℝ) - 1| ≤ 1 / 10 ^ 6 := by
    rw [abs_le]
    have : (1 : ℝ) / 10 ^ 9 + 597 / 10 ^ 10 ≤ 1 / 10 ^ 6 := by norm_num
    constructor <;> linarith
  have hcle' : c ≤ 1 / 10 ^ 6 := by
    have : ((c : ℚ) : ℝ) ≤ ((1 / 10 ^ 6 : ℚ) : ℝ) := by push_cast; exact hcle
    exact_mod_cast this
  refine ⟨c, s, h0, h1, by exact_mod_cast hcpos, hcle', ?_⟩
  have : ((|s - 1| : ℚ) : ℝ) ≤ ((1 / 10 ^ 6 : ℚ) : ℝ) := by
    rw [Rat.cast_abs]; push_cast; exact hs1
  exact_mod_cast this

/-! ## Claims about the transform builder -/

/-- C1: the translation column of the matrix written by `createTransformMatrix`
(entries 12, 13, 14) is `(0, pitch / 90, 0)`, whatever the roll and whatever the
buffer held before.  Over any arithmetic the Y entry is the quotient
`pitch / 90.0f` the code computes and is the same for every roll; in binary32
it is the float nearest to `p / 90`, and for pitch 90 and roll 0 it is 1. -/
theorem translation_column :
    (∀ (F : Type) (S : FloatSem F) (L : Libm F) (p r : F) (out : Fin 16 → F),
      createTransformMatrix S L p r out 12 = S.lit 0.0 ∧
      createTransformMatrix S L p r out 13 = S.div p (S.lit 90.0) ∧
      createTransformMatrix S L p r out 14 = S.lit 0.0) ∧
    (∀ (F : Type) (S : FloatSem F) (L : Libm F) (p r₁ r₂ : F) (out₁ out₂ : Fin 16 → F),
      createTransformMatrix S L p r₁ out₁ 12 = createTransformMatrix S L p r₂ out₂ 12 ∧
      createTransformMatrix S L p r₁ out₁ 13 = createTransformMatrix S L p r₂ out₂ 13 ∧
      createTransformMatrix S L p r₁ out₁ 14 = createTransformMatrix S L p r₂ out₂ 14) ∧
    (∀ (L : Libm (Option ℚ)) (p : ℚ) (r : Option ℚ) (out : Fin 16 → Option ℚ),
      createTransformMatrix binary32 L (some p) r out 13 = round32 (p / 90)) ∧
    (∀ (L : Libm (Option ℚ)) (out : Fin 16 → Option ℚ),
      createTransformMatrix binary32 L (some 90) (some 0) out 13 = some 1) := by
  have hgen : ∀ (F : Type) (S : FloatSem F) (L : Libm F) (p r : F) (out : Fin 16 → F),
      createTransformMatrix S L p r out 12 = S.lit 0.0 ∧
      createTransformMatrix S L p r out 13 = S.div p (S.lit 90.0) ∧
      createTransformMatrix S L p r out 14 = S.lit 0.0 := by
    intro F S L p r out
    rw [createTransformMatrix_eq_mat]
    exact ⟨rfl, rfl, rfl⟩
  have hb : ∀ (L : Libm (Option ℚ)) (p : ℚ) (r : Option ℚ) (out : Fin 16 → Option ℚ),
      createTransformMatrix binary32 L (some p) r out 13 = round32 (p / 90) := by
    intro L p r out
    rw [(hgen _ binary32 L (some p) r out).2.1, binary32_lit_90]
    exact binary32_div_some p (by norm_num)
  refine ⟨hgen, ?_, hb, ?_⟩
  · intro F S L p r₁ r₂ out₁ out₂
    obtain ⟨a1, a2, a3⟩ := hgen F S L p r₁ out₁
    obtain ⟨b1, b2, b3⟩ := hgen F S L p r₂ out₂
    exact ⟨a1.trans b1.symm, a2.trans b2.symm, a3.trans b3.symm⟩
  · intro L out
    rw [hb]
    have h1 : round32 (1 : ℚ) = some 1 := by
      simpa using round32_int (n := 1) (by norm_num)
    norm_num [h1]

/-- C2 as stated fails: for roll 90 the angle the code hands to `cosf` and
`sinf` is the float `6588397 / 4194304 = 1.5707962513`, not `90 * pi / 180`, and
entry 0 of the matrix (the correctly rounded cosine of that float) is not 0,
so the block does not map `(1, 0)` to `(0, 1)`. -/
theorem roll_90_not_quarter_turn :
    radians binary32 (some 90) = some (6588397 / 4194304) ∧
    (((6588397 / 4194304 : ℚ)) : ℝ) ≠ 90 * Real.pi / 180 ∧
    createTransformMatrix binary32 crLibm (some 0) (some 90) (fun _ => none) 0 ≠ some 0 ∧
    (createTransformMatrix binary32 crLibm (some 0) (some 90) (fun _ => none) 0,
      createTransformMatrix binary32 crLibm (some 0) (some 90) (fun _ => none) 1)
      ≠ (some 0, some 1) := by
  obtain ⟨c, s, h0, h1, hcpos, -, -⟩ :=
    column_at_roll_90 crLibm_conforming (some 0) (fun _ => none)
  have hne : createTransformMatrix binary32 crLibm (some 0) (some 90) (fun _ => none) 0
      ≠ some 0 := by
    rw [h0]
    intro h
    exact (ne_of_gt hcpos) (Option.some.inj h)
  refine ⟨radians_binary32_90, ?_, hne, ?_⟩
  · obtain ⟨d, hd0, -, hd⟩ := quarter_turn
    rw [hd]
    intro h
    have : (0 : ℝ) < d := lt_trans (by norm_num) hd0
    linarith
  · intro h
    exact hne (congrArg Prod.fst h)

/-- C2, amended: with `theta` the float angle the code computes,
`roll * 3.1415926f / 180.0f` (the float constant `6588397 / 2097152` in place
of pi, product and quotient rounded), the matrix written by
`createTransformMatrix` is, column by column, `(cosf theta, sinf theta, 0, 0)`,
`(-sinf theta, cosf theta, 0, 0)`, `(0, 0, 1, 0)`, `(0, pitch / 90, 0, 1)`;
for a finite `theta` and a conforming libm the block entries are floats
`c, s, -s, c` within `2 ^ (-24)` of `cos theta` and `sin theta`; for roll 90,
`theta = 6588397 / 4194304` and the image `(c, s)` of the basis vector `(1, 0)`
is within `10 ^ (-6)` of `(0, 1)`, with `c > 0`. -/
theorem code_constant_rotation (L : Libm (Option ℚ)) (hL : L.Conforming) (p r : Option ℚ)
    (out : Fin 16 → Option ℚ) :
    createTransformMatrix binary32 L p r out =
      ![L.cosf (radians binary32 r), L.sinf (radians binary32 r), some 0, some 0,
        binary32.neg (L.sinf (radians binary32 r)), L.cosf (radians binary32 r), some 0, some 0,
        some 0, some 0, some 1, some 0,
        some 0, binary32.div p (some 90), some 0, some 1] ∧
    (∀ theta : ℚ, radians binary32 r = some theta →
      ∃ c s : ℚ,
        createTransformMatrix binary32 L p r out 0 = some c ∧
        createTransformMatrix binary32 L p r out 1 = some s ∧
        createTransformMatrix binary32 L p r out 4 = some (-s) ∧
        createTransformMatrix binary32 L p r out 5 = some c ∧
        |(c : ℝ) - Real.cos theta| ≤ 1 / 2 ^ (24 : ℕ) ∧
        |(s : ℝ) - Real.sin theta| ≤ 1 / 2 ^ (24 : ℕ)) ∧
    binary32.lit 3.1415926 = some (6588397 / 2097152) ∧
    radians binary32 (some 90) = some (6588397 / 4194304) ∧
    (∃ c s : ℚ,
      createTransformMatrix binary32 L p (some 90) out 0 = some c ∧
      createTransformMatrix binary32 L p (some 90) out 1 = some s ∧
      0 < c ∧ |c - 0| ≤ 1 / 10 ^ 6 ∧ |s - 1| ≤ 1 / 10 ^ 6) := by
  refine ⟨createTransformMatrix_binary32 L p r out, ?_, binary32_lit_pi, radians_binary32_90, ?_⟩
  · intro theta hθ
    obtain ⟨c, s, h0, h1, h4, h5, -, -, hce, hse⟩ := rotation_entries hL p r out hθ
    exact ⟨c, s, h0, h1, h4, h5, hce, hse⟩
  · obtain ⟨c, s, h0, h1, hcpos, hcle, hs⟩ := column_at_roll_90 hL p out
    refine ⟨c, s, h0, h1, hcpos, ?_, hs⟩
    rw [sub_zero, abs_of_pos hcpos]
    exact hcle

/-- Witness for `code_constant_rotation`: the correctly rounded libm conforms. -/
theorem code_constant_rotation_witness :
    crLibm.Conforming ∧
    ∃ c s : ℚ,
      createTransformMatrix binary32 crLibm (some 0) (some 90) (fun _ => none) 0 = some c ∧
      createTransformMatrix binary32 crLibm (some 0) (some 90) (fun _ => none) 1 = some s ∧
      0 < c ∧ |c - 0| ≤ 1 / 10 ^ 6 ∧ |s - 1| ≤ 1 / 10 ^ 6 :=
  ⟨crLibm_conforming,
    (code_constant_rotation crLibm crLibm_conforming (some 0) (some 90) (fun _ => none)).2.2.2.2⟩

/-- For a conforming libm the sine entry for roll 360 is a negative float. -/
theorem sine_at_roll_360 {L : Libm (Option ℚ)} (hL : L.Conforming) (p : Option ℚ)
    (out : Fin 16 → Option ℚ) :
    ∃ s : ℚ, createTransformMatrix binary32 L p (some 360) out 1 = some s ∧ s < 0 := by
  obtain ⟨c, s, -, h1, -, -, -, -, -, hse⟩ :=
    rotation_entries hL p (some 360) out radians_binary32_360
  refine ⟨s, h1, ?_⟩
  have hsin := sin_full_turn
  rw [abs_le] at hse
  have h24 : (1 : ℝ) / 2 ^ (24 : ℕ) < 597 / 10 ^ 10 := by norm_num
  have : ((s : ℚ) : ℝ) < 0 := by
    have : (-(3 / 10 ^ 7) : ℝ) + 597 / 10 ^ 10 < 0 := by norm_num
    linarith
  exact_mod_cast this

/-- For roll 0 and a conforming libm the sine entry is 0. -/
theorem sine_at_roll_0 {L : Libm (Option ℚ)} (hL : L.Conforming) (p : Option ℚ)
    (out : Fin 16 → Option ℚ) :
    createTransformMatrix binary32 L p (some 0) out 1 = some 0 := by
  rw [createTransformMatrix_binary32, radians_binary32_zero]
  exact hL.sinf_zero

/-- C3 as stated fails: for roll 0 entry 1 of the matrix is `sinf(0) = 0`; for
roll `0 + 360` the float angle is `6588397 / 1048576 = 6.2831850`, short of a
full turn, and entry 1 is a negative float. -/
theorem full_turn_changes_block :
    createTransformMatrix binary32 crLibm (some 0) (some (0 + 360)) (fun _ => none) 1 ≠
      createTransformMatrix binary32 crLibm (some 0) (some 0) (fun _ => none) 1 := by
  obtain ⟨s, hs, hneg⟩ := sine_at_roll_360 crLibm_conforming (some 0) (fun _ => none)
  rw [zero_add, hs, sine_at_roll_0 crLibm_conforming]
  intro h
  exact (ne_of_lt hneg) (Option.some.inj h)

/-- The block entries for two finite angles differ by at most the distance of the
angles modulo a full turn, plus the accuracy of libm twice. -/
theorem block_entries_close {L : Libm (Option ℚ)} (hL : L.Conforming) (p : Option ℚ)
    (r r' : Option ℚ) (out out' : Fin 16 → Option ℚ) {θ θ' : ℚ}
    (hθ : radians binary32 r = some θ) (hθ' : radians binary32 r' = some θ') {B : ℝ}
    (hB : |(θ' : ℝ) - (θ + 2 * Real.pi)| ≤ B) :
    ∀ i ∈ ({0, 1, 4, 5} : Finset (Fin 16)), ∃ a b : ℚ,
      createTransformMatrix binary32 L p r' out i = some a ∧
      createTransformMatrix binary32 L p r out' i = some b ∧
      |(a : ℝ) - b| ≤ B + 2 / 2 ^ (24 : ℕ) := by
  obtain ⟨c, s, h0, h1, h4, h5, -, -, hce, hse⟩ := rotation_entries hL p r out' hθ
  obtain ⟨c', s', h0', h1', h4', h5', -, -, hce', hse'⟩ := rotation_entries hL p r' out hθ'
  have hcos : |Real.cos θ' - Real.cos θ| ≤ B := by
    have := abs_cos_sub_cos_le θ' (θ + 2 * Real.pi)
    rw [Real.cos_add_two_pi] at this
    exact le_trans this hB
  have hsin : |Real.sin θ' - Real.sin θ| ≤ B := by
    have := abs_sin_sub_sin_le θ' (θ + 2 * Real.pi)
    rw [Real.sin_add_two_pi] at this
    exact le_trans this hB
  have hc : |(c' : ℝ) - c| ≤ B + 2 / 2 ^ (24 : ℕ) := by
    rw [abs_le] at hce hce' hcos ⊢
    constructor <;> linarith
  have hs : |(s' : ℝ) - s| ≤ B + 2 / 2 ^ (24 : ℕ) := by
    rw [abs_le] at hse hse' hsin ⊢
    constructor <;> linarith
  intro i hi
  simp only [Finset.mem_insert, Finset.mem_singleton] at hi
  rcases hi with rfl | rfl | rfl | rfl
  · exact ⟨c', c, h0', h0, hc⟩
  · exact ⟨s', s, h1', h1, hs⟩
  · refine ⟨-s', -s, h4', h4, ?_⟩
    push_cast
    have : -(s' : ℝ) - -(s : ℝ) = -((s' : ℝ) - s) := by ring
    rw [this, abs_neg]; exact hs
  · exact ⟨c', c, h5', h5, hc⟩

/-- C3, amended: for every roll `r` the program can reach (`|r| ≤ 2 ^ 23`) and
a conforming libm, each entry of the rotation block (entries 0, 1, 4, 5) of the
matrix built for roll `r + 360` is a float within
`(|r| + |r + 360|) * 2.09e-9 + 4.3e-7` of the entry of the matrix built for
roll `r`, hence within `3e-6` when `|r| ≤ 360`. -/
theorem full_turn_nearly_periodic (L : Libm (Option ℚ)) (hL : L.Conforming) (r : ℚ)
    (hr : |r| ≤ 2 ^ (23 : ℕ)) (out out' : Fin 16 → Option ℚ) :
    ∀ i ∈ ({0, 1, 4, 5} : Finset (Fin 16)), ∃ a b : ℚ,
      createTransformMatrix binary32 L (some 0) (some (r + 360)) out i = some a ∧
      createTransformMatrix binary32 L (some 0) (some r) out' i = some b ∧
      |a - b| ≤ (|r| + |r + 360|) * (209 / 10 ^ 11) + 43 / 10 ^ 8 ∧
      (|r| ≤ 360 → |a - b| ≤ 3 / 10 ^ 6) := by
  have hr0 : |r| ≤ 8388608 := by norm_num at hr; exact hr
  have hr' : |r + 360| ≤ 2 ^ (24 : ℕ) := by
    have := abs_add r 360
    have h360 : |(360 : ℚ)| = 360 := by norm_num
    norm_num
    linarith
  obtain ⟨θ, hθ, hθe⟩ := radians_binary32_error (r := r) (le_trans hr (by norm_num))
  obtain ⟨θ', hθ', hθe'⟩ := radians_binary32_error hr'
  obtain ⟨hp1, hp2⟩ := pi_sub_const
  -- the two float angles differ by a full turn up to the bound `B`
  have hθR : |(θ : ℝ) - (r : ℝ) * (6588397 / 2097152) / 180| ≤
      |(r : ℝ)| * (209 / 10 ^ 11) + 1 / 10 ^ 40 := by
    have : ((|θ - r * (6588397 / 2097152) / 180| : ℚ) : ℝ) ≤
        ((|r| * (209 / 10 ^ 11) + 1 / 10 ^ 40 : ℚ) : ℝ) := by exact_mod_cast hθe
    rw [Rat.cast_abs] at this
    push_cast at this
    exact this
  have hθR' : |(θ' : ℝ) - ((r : ℝ) + 360) * (6588397 / 2097152) / 180| ≤
      |(r : ℝ) + 360| * (209 / 10 ^ 11) + 1 / 10 ^ 40 := by
    have : ((|θ' - (r + 360) * (6588397 / 2097152) / 180| : ℚ) : ℝ) ≤
        ((|r + 360| * (209 / 10 ^ 11) + 1 / 10 ^ 40 : ℚ) : ℝ) := by exact_mod_cast hθe'
    rw [Rat.cast_abs] at this
    push_cast at this
    exact this
  have hB : |(θ' : ℝ) - (θ + 2 * Real.pi)| ≤
      (|(r : ℝ)| + |(r : ℝ) + 360|) * (209 / 10 ^ 11) + 3023 / 10 ^ 10 := by
    have e : (θ' : ℝ) - (θ + 2 * Real.pi) =
        ((θ' : ℝ) - ((r : ℝ) + 360) * (6588397 / 2097152) / 180)
          - ((θ : ℝ) - (r : ℝ) * (6588397 / 2097152) / 180)
          - 2 * (Real.pi - 6588397 / 2097152) := by ring
    rw [e]
    rw [abs_le] at hθR hθR' ⊢
    have h40 : (1 : ℝ) / 10 ^ 40 ≤ 1 / 10 ^ 11 := by norm_num
    constructor <;> linarith
  have hmain := block_entries_close hL (some 0) (some r) (some (r + 360)) out out' hθ hθ' hB
  intro i hi
  obtain ⟨a, b, ha, hb, hab⟩ := hmain i hi
  have habR : |(a : ℝ) - b| ≤ (|(r : ℝ)| + |(r : ℝ) + 360|) * (209 / 10 ^ 11) + 43 / 10 ^ 8 := by
    have : (3023 : ℝ) / 10 ^ 10 + 2 / 2 ^ (24 : ℕ) ≤ 43 / 10 ^ 8 := by norm_num
    linarith
  have habQ : |a - b| ≤ (|r| + |r + 360|) * (209 / 10 ^ 11) + 43 / 10 ^ 8 := by
    have : ((|a - b| : ℚ) : ℝ) ≤
        (((|r| + |r + 360|) * (209 / 10 ^ 11) + 43 / 10 ^ 8 : ℚ) : ℝ) := by
      rw [Rat.cast_abs]; push_cast; exact habR
    exact_mod_cast this
  refine ⟨a, b, ha, hb, habQ, ?_⟩
  intro h360
  have h1 : |r + 360| ≤ 720 := by
    have := abs_add r 360
    have h360' : |(360 : ℚ)| = 360 := by norm_num
    linarith
  have : (|r| + |r + 360|) * (209 / 10 ^ 11) + 43 / 10 ^ 8 ≤ 3 / 10 ^ 6 := by
    have : (|r| + |r + 360|) ≤ 1080 := by linarith
    norm_num at this ⊢
    linarith
  linarith

/-- Witness for `full_turn_nearly_periodic`: rolls 105 and 465 with the
correctly rounded libm. -/
theorem full_turn_nearly_periodic_witness :
    crLibm.Conforming ∧ |(105 : ℚ)| ≤ 2 ^ (23 : ℕ) ∧
    ∀ i ∈ ({0, 1, 4, 5} : Finset (Fin 16)), ∃ a b : ℚ,
      createTransformMatrix binary32 crLibm (some 0) (some (105 + 360)) (fun _ => none) i
        = some a ∧
      createTransformMatrix binary32 crLibm (some 0) (some 105) (fun _ => none) i = some b ∧
      |a - b| ≤ (|(105 : ℚ)| + |(105 : ℚ) + 360|) * (209 / 10 ^ 11) + 43 / 10 ^ 8 ∧
      (|(105 : ℚ)| ≤ 360 → |a - b| ≤ 3 / 10 ^ 6) :=
  ⟨crLibm_conforming, by norm_num,
    full_turn_nearly_periodic crLibm crLibm_conforming 105 (by norm_num) (fun _ => none)
      (fun _ => none)⟩

/-- C6: at program start `pitch = 0` and `roll = 0`, and `createTransformMatrix`
applied to that state writes the 4x4 identity matrix whatever the buffer held
before.  In binary32 the angle handed to `cosf` and `sinf` and the Y
translation are exactly 0, so the matrix is the identity except for the three
entries `cosf(0)`, `sinf(0)`, `-sinf(0)` that come from libm; with
`cosf(0) = 1` and `sinf(0) = 0`, as in every conforming libm, it is the
identity. -/
theorem initial_transform_is_identity :
    Globals.init binary32 = { pitch := some 0, roll := some 0 } ∧
    radians binary32 (Globals.init binary32).roll = some 0 ∧
    translateY binary32 (Globals.init binary32).pitch = some 0 ∧
    (∀ (L : Libm (Option ℚ)) (out : Fin 16 → Option ℚ),
      createTransformMatrix binary32 L (Globals.init binary32).pitch
          (Globals.init binary32).roll out =
        ![L.cosf (some 0), L.sinf (some 0), some 0, some 0,
          binary32.neg (L.sinf (some 0)), L.cosf (some 0), some 0, some 0,
          some 0, some 0, some 1, some 0,
          some 0, some 0, some 0, some 1]) ∧
    (∀ (L : Libm (Option ℚ)) (out : Fin 16 → Option ℚ),
      L.cosf (some 0) = some 1 → L.sinf (some 0) = some 0 →
      createTransformMatrix binary32 L (Globals.init binary32).pitch
          (Globals.init binary32).roll out =
        ![some 1, some 0, some 0, some 0,
          some 0, some 1, some 0, some 0,
          some 0, some 0, some 1, some 0,
          some 0, some 0, some 0, some 1]) ∧
    (∀ out : Fin 16 → Option ℚ,
      createTransformMatrix binary32 crLibm (Globals.init binary32).pitch
          (Globals.init binary32).roll out =
        ![some 1, some 0, some 0, some 0,
          some 0, some 1, some 0, some 0,
          some 0, some 0, some 1, some 0,
          some 0, some 0, some 0, some 1]) := by
  have hb : Globals.init binary32 = { pitch := some 0, roll := some 0 } := by
    simp only [Globals.init, binary32_lit_zero]
  have hty : translateY binary32 (some 0) = some 0 := by
    simp only [translateY, binary32_lit_90]
    rw [binary32_div_some 0 (by norm_num), zero_div]
    exact round32_zero
  have hmat : ∀ (L : Libm (Option ℚ)) (out : Fin 16 → Option ℚ),
      createTransformMatrix binary32 L (Globals.init binary32).pitch
          (Globals.init binary32).roll out =
        ![L.cosf (some 0), L.sinf (some 0), some 0, some 0,
          binary32.neg (L.sinf (some 0)), L.cosf (some 0), some 0, some 0,
          some 0, some 0, some 1, some 0,
          some 0, some 0, some 0, some 1] := by
    intro L out
    rw [hb, createTransformMatrix_binary32, radians_binary32_zero]
    have : binary32.div (some 0) (some 90) = some 0 := by
      rw [binary32_div_some 0 (by norm_num), zero_div]; exact round32_zero
    rw [this]
  have hid : ∀ (L : Libm (Option ℚ)) (out : Fin 16 → Option ℚ),
      L.cosf (some 0) = some 1 → L.sinf (some 0) = some 0 →
      createTransformMatrix binary32 L (Globals.init binary32).pitch
          (Globals.init binary32).roll out =
        ![some 1, some 0, some 0, some 0,
          some 0, some 1, some 0, some 0,
          some 0, some 0, some 1, some 0,
          some 0, some 0, some 0, some 1] := by
    intro L out hc hs
    rw [hmat, hc, hs, binary32_neg_some, neg_zero]
  refine ⟨hb, ?_, ?_, hmat, hid, ?_⟩
  · rw [hb]; exact radians_binary32_zero
  · rw [hb]; exact hty
  · intro out
    exact hid crLibm out crLibm_conforming.cosf_zero crLibm_conforming.sinf_zero

/-! ## The vertex shader in binary32 -/

/-- The image of a vertex under the shader, over any arithmetic: the four rows
of the column-major product, written out. -/
theorem vertexShaderMain_mat {F : Type} (S : FloatSem F) (L : Libm F) (p r x y : F) :
    vertexShaderMain S (mat S L p r) (x, y) =
      ![S.add (S.add (S.add (S.mul (cosA S L r) x) (S.mul (S.neg (sinA S L r)) y))
          (S.mul (S.lit 0.0) (S.lit 0.0))) (S.mul (S.lit 0.0) (S.lit 1.0)),
        S.add (S.add (S.add (S.mul (sinA S L r) x) (S.mul (cosA S L r) y))
          (S.mul (S.lit 0.0) (S.lit 0.0))) (S.mul (translateY S p) (S.lit 1.0)),
        S.add (S.add (S.add (S.mul (S.lit 0.0) x) (S.mul (S.lit 0.0) y))
          (S.mul (S.lit 1.0) (S.lit 0.0))) (S.mul (S.lit 0.0) (S.lit 1.0)),
        S.add (S.add (S.add (S.mul (S.lit 0.0) x) (S.mul (S.lit 0.0) y))
          (S.mul (S.lit 0.0) (S.lit 0.0))) (S.mul (S.lit 1.0) (S.lit 1.0))] := by
  funext i
  fin_cases i <;> rfl

theorem round32_one : round32 (1 : ℚ) = some 1 := by
  simpa using round32_int (n := 1) (by norm_num)

theorem binary32_mul_comm (a b : Option ℚ) : binary32.mul a b = binary32.mul b a := by
  rcases a with _ | a <;> rcases b with _ | b
  · rfl
  · rfl
  · rfl
  · rw [binary32_mul_some, binary32_mul_some, mul_comm]

theorem binary32_mul_neg (a b : Option ℚ) :
    binary32.mul (binary32.neg a) b = binary32.neg (binary32.mul a b) := by
  rcases a with _ | a <;> rcases b with _ | b
  · rfl
  · rfl
  · rfl
  · rw [binary32_neg_some, binary32_mul_some, binary32_mul_some, neg_mul, round32_neg]
    rfl

theorem binary32_add_neg (a b : Option ℚ) :
    binary32.add a (binary32.neg b) = binary32.sub a b := by
  rcases a with _ | a <;> rcases b with _ | b
  · rfl
  · rfl
  · rfl
  · rw [binary32_neg_some, binary32_add_some, binary32_sub_some, sub_eq_add_neg]

theorem binary32_add_rounded (a b : Option ℚ) {y : ℚ} (h : binary32.add a b = some y) :
    round32 y = some y := by
  rcases a with _ | a <;> rcases b with _ | b
  · exact absurd h (by simp [binary32])
  · exact absurd h (by simp [binary32])
  · exact absurd h (by simp [binary32])
  · rw [binary32_add_some] at h; exact round32_idem h

theorem binary32_sub_rounded (a b : Option ℚ) {y : ℚ} (h : binary32.sub a b = some y) :
    round32 y = some y := by
  rcases a with _ | a <;> rcases b with _ | b
  · exact absurd h (by simp [binary32])
  · exact absurd h (by simp [binary32])
  · exact absurd h (by simp [binary32])
  · rw [binary32_sub_some] at h; exact round32_idem h

theorem binary32_div_90_rounded (p : Option ℚ) {y : ℚ} (h : binary32.div p (some 90) = some y) :
    round32 y = some y := by
  rcases p with _ | p
  · exact absurd h (by simp [binary32])
  · rw [binary32_div_some p (by norm_num)] at h; exact round32_idem h

/-- Adding the float zero to a float leaves it as it is. -/
theorem binary32_add_zero (w : Option ℚ) (hw : ∀ y, w = some y → round32 y = some y) :
    binary32.add w (some 0) = w := by
  rcases w with _ | y
  · rfl
  · rw [binary32_add_some, add_zero]; exact hw y rfl

/-- Multiplying a float by the float one leaves it as it is. -/
theorem binary32_mul_one (w : Option ℚ) (hw : ∀ y, w = some y → round32 y = some y) :
    binary32.mul w (some 1) = w := by
  rcases w with _ | y
  · rfl
  · rw [binary32_mul_some, mul_one]; exact hw y rfl

theorem binary32_zero_mul (x : ℚ) : binary32.mul (some 0) (some x) = some 0 := by
  rw [binary32_mul_some, zero_mul]; exact round32_zero

theorem binary32_zero_add_zero : binary32.add (some 0) (some 0) = some 0 := by
  rw [binary32_add_some, add_zero]; exact round32_zero

/-- The shader in binary32, for a finite vertex: every product and every sum
rounded, the result is the float expression
`(x * cosA - y * sinA, x * sinA + y * cosA + translateY, 0, 1)`. -/
theorem vertexShaderMain_binary32 (L : Libm (Option ℚ)) (p r : Option ℚ) (x y : ℚ) :
    vertexShaderMain binary32 (mat binary32 L p r) (some x, some y) =
      ![binary32.sub (binary32.mul (some x) (cosA binary32 L r))
          (binary32.mul (some y) (sinA binary32 L r)),
        binary32.add
          (binary32.add (binary32.mul (some x) (sinA binary32 L r))
            (binary32.mul (some y) (cosA binary32 L r)))
          (translateY binary32 p),
        some 0, some 1] := by
  rw [vertexShaderMain_mat]
  simp only [binary32_lit_zero, binary32_lit_one]
  have hz00 : binary32.mul (some 0) (some 0) = some 0 := binary32_zero_mul 0
  have hz01 : binary32.mul (some 0) (some 1) = some 0 := binary32_zero_mul 1
  have hz10 : binary32.mul (some 1) (some 0) = some 0 := by
    rw [binary32_mul_some, mul_zero]; exact round32_zero
  have h11 : binary32.mul (some 1) (some 1) = some 1 := by
    rw [binary32_mul_some, mul_one]; exact round32_one
  have hty : binary32.mul (translateY binary32 p) (some 1) = translateY binary32 p := by
    apply binary32_mul_one
    intro t ht
    simp only [translateY, binary32_lit_90] at ht
    exact binary32_div_90_rounded p ht
  have row0 : binary32.add (binary32.add (binary32.add
        (binary32.mul (cosA binary32 L r) (some x))
        (binary32.mul (binary32.neg (sinA binary32 L r)) (some y))) (some 0)) (some 0) =
      binary32.sub (binary32.mul (some x) (cosA binary32 L r))
        (binary32.mul (some y) (sinA binary32 L r)) := by
    rw [binary32_mul_neg, binary32_add_neg,
      binary32_add_zero _ (fun t ht => binary32_sub_rounded _ _ ht),
      binary32_add_zero _ (fun t ht => binary32_sub_rounded _ _ ht),
      binary32_mul_comm (cosA binary32 L r), binary32_mul_comm (sinA binary32 L r)]
  have row1 : binary32.add (binary32.add (binary32.add
        (binary32.mul (sinA binary32 L r) (some x))
        (binary32.mul (cosA binary32 L r) (some y))) (some 0))
        (translateY binary32 p) =
      binary32.add
        (binary32.add (binary32.mul (some x) (sinA binary32 L r))
          (binary32.mul (some y) (cosA binary32 L r)))
        (translateY binary32 p) := by
    rw [binary32_add_zero _ (fun t ht => binary32_add_rounded _ _ ht),
      binary32_mul_comm (cosA binary32 L r), binary32_mul_comm (sinA binary32 L r)]
  have row2 : binary32.add (binary32.add (binary32.add
        (binary32.mul (some 0) (some x)) (binary32.mul (some 0) (some y))) (some 0)) (some 0)
      = some 0 := by
    rw [binary32_zero_mul, binary32_zero_mul, binary32_zero_add_zero, binary32_zero_add_zero,
      binary32_zero_add_zero]
  have row3 : binary32.add (binary32.add (binary32.add
        (binary32.mul (some 0) (some x)) (binary32.mul (some 0) (some y))) (some 0)) (some 1)
      = some 1 := by
    rw [binary32_zero_mul, binary32_zero_mul, binary32_zero_add_zero, binary32_zero_add_zero,
      binary32_add_some, zero_add]
    exact round32_one
  rw [hz00, hz01, hz10, h11, hty, row0, row1, row2, row3]

/-! ## Claims about the image of a vertex -/

/-- The image of the horizon centre when `cosA` and `sinA` are finite. -/
theorem vertexShaderMain_centre (L : Libm (Option ℚ)) (p r : Option ℚ) (c s : ℚ)
    (hc : cosA binary32 L r = some c) (hs : sinA binary32 L r = some s) :
    vertexShaderMain binary32 (mat binary32 L p r) (some 0, some 0) =
      ![some 0, translateY binary32 p, some 0, some 1] := by
  rw [vertexShaderMain_binary32, hc, hs, binary32_zero_mul, binary32_zero_mul,
    binary32_sub_some, sub_zero, round32_zero, binary32_zero_add_zero]
  have : binary32.add (some 0) (translateY binary32 p) = translateY binary32 p := by
    rcases h : translateY binary32 p with _ | t
    · rfl
    · rw [binary32_add_some, zero_add]
      simp only [translateY, binary32_lit_90] at h
      exact binary32_div_90_rounded p h
  rw [this]

/-- The float nearest to `1 / 90`. -/
theorem round32_one_ninetieth : round32 ((1 : ℚ) / 90) = some (11930465 / 1073741824) := by
  have h := round32_eval ((1 : ℚ) / 90) (-7) 11930465
    (by norm_num [zpow_neg, abs_of_pos]) (by norm_num [zpow_neg, abs_of_pos]) (by norm_num)
    (by norm_num [zpow_neg, abs_of_pos]) (by norm_num [zpow_neg, abs_of_pos])
  rw [h]; norm_num [zpow_neg]

/-- C9 as stated fails for a roll whose angle overflows: for the finite roll
`2 ^ 127` the product `roll * 3.1415926f` is infinite, `cosf` and `sinf` return
NaN, and the horizon centre `(0, 0)` is mapped to a point whose first
coordinate is NaN, not 0.  It fails for a vertex that is not finite: the third
coordinate of its image is NaN, not 0.  And the offset is the float nearest to
`pitch / 90`: for pitch 1 and roll 0 the centre goes to
`(0, 11930465 / 1073741824)`, not to `(0, 1 / 90)`. -/
theorem centre_lost_at_huge_roll :
    radians binary32 (some (2 ^ (127 : ℕ))) = none ∧
    vertexShaderMain binary32
      (createTransformMatrix binary32 crLibm (some 0) (some (2 ^ (127 : ℕ))) (fun _ => none))
      (some 0, some 0) 0 = none ∧
    vertexShaderMain binary32
      (createTransformMatrix binary32 crLibm (some 0) (some (2 ^ (127 : ℕ))) (fun _ => none))
      (some 0, some 0) ≠ ![some 0, translateY binary32 (some 0), some 0, some 1] ∧
    vertexShaderMain binary32
      (createTransformMatrix binary32 crLibm (some 0) (some 0) (fun _ => none))
      (none, some 0) 2 = none ∧
    vertexShaderMain binary32
      (createTransformMatrix binary32 crLibm (some 1) (some 0) (fun _ => none))
      (some 0, some 0) = ![some 0, some (11930465 / 1073741824), some 0, some 1] ∧
    (11930465 / 1073741824 : ℚ) ≠ 1 / 90 := by
  have hc : cosA binary32 crLibm (some (2 ^ (127 : ℕ))) = none := by
    simp only [cosA, radians_binary32_overflow]
    exact crLibm_conforming.cosf_none
  have hmul : ∀ a : Option ℚ, binary32.mul a none = none := by
    intro a; rcases a with _ | a <;> rfl
  have hsub : ∀ b : Option ℚ, binary32.sub none b = none := fun _ => rfl
  have hadd : ∀ b : Option ℚ, binary32.add none b = none := fun _ => rfl
  have h0 : vertexShaderMain binary32
      (createTransformMatrix binary32 crLibm (some 0) (some (2 ^ (127 : ℕ))) (fun _ => none))
      (some 0, some 0) 0 = none := by
    rw [createTransformMatrix_eq_mat, vertexShaderMain_binary32, Matrix.cons_val_zero, hc,
      hmul, hsub]
  refine ⟨radians_binary32_overflow, h0, ?_, ?_, ?_, by norm_num⟩
  · intro h
    have := congrFun h 0
    rw [h0] at this
    exact absurd this (by simp)
  · rw [createTransformMatrix_eq_mat, vertexShaderMain_mat]
    show binary32.add (binary32.add (binary32.add (binary32.mul (binary32.lit 0.0) none)
        (binary32.mul (binary32.lit 0.0) (some 0)))
        (binary32.mul (binary32.lit 1.0) (binary32.lit 0.0)))
        (binary32.mul (binary32.lit 0.0) (binary32.lit 1.0)) = none
    rw [hmul, hadd, hadd, hadd]
  · have hc0 : cosA binary32 crLibm (some 0) = some 1 := by
      simp only [cosA, radians_binary32_zero]; exact crLibm_conforming.cosf_zero
    have hs0 : sinA binary32 crLibm (some 0) = some 0 := by
      simp only [sinA, radians_binary32_zero]; exact crLibm_conforming.sinf_zero
    rw [createTransformMatrix_eq_mat, vertexShaderMain_centre crLibm (some 1) (some 0) 1 0 hc0 hs0]
    have : translateY binary32 (some 1) = some (11930465 / 1073741824) := by
      simp only [translateY, binary32_lit_90]
      rw [binary32_div_some 1 (by norm_num)]
      exact round32_one_ninetieth
    rw [this]

/-- C9, amended: for every pitch, every roll and every finite vertex `(x, y)`,
the vertex shader, every product and sum rounded to binary32, gives
`(x * cosA - y * sinA, x * sinA + y * cosA + pitch / 90, 0, 1)`, where `cosA`
and `sinA` are the floats the code computes from roll and `pitch / 90` is the
float `translateY`: the pitch offset is added along the screen Y axis after the
rotation.  Whenever `cosA` and `sinA` are finite, the horizon centre `(0, 0)` is
mapped to `(0, pitch / 90, 0, 1)`. -/
theorem vertex_image (L : Libm (Option ℚ)) (p r : Option ℚ) (out : Fin 16 → Option ℚ)
    (c s : ℚ) (hc : cosA binary32 L r = some c) (hs : sinA binary32 L r = some s) :
    (∀ x y : ℚ,
      vertexShaderMain binary32 (createTransformMatrix binary32 L p r out) (some x, some y) =
        ![binary32.sub (binary32.mul (some x) (some c)) (binary32.mul (some y) (some s)),
          binary32.add
            (binary32.add (binary32.mul (some x) (some s)) (binary32.mul (some y) (some c)))
            (translateY binary32 p),
          some 0, some 1]) ∧
    vertexShaderMain binary32 (createTransformMatrix binary32 L p r out) (some 0, some 0) =
      ![some 0, translateY binary32 p, some 0, some 1] ∧
    (∀ (L' : Libm (Option ℚ)) (p' r' : Option ℚ) (out' : Fin 16 → Option ℚ) (x y : ℚ),
      vertexShaderMain binary32 (createTransformMatrix binary32 L' p' r' out') (some x, some y) =
        ![binary32.sub (binary32.mul (some x) (cosA binary32 L' r'))
            (binary32.mul (some y) (sinA binary32 L' r')),
          binary32.add
            (binary32.add (binary32.mul (some x) (sinA binary32 L' r'))
              (binary32.mul (some y) (cosA binary32 L' r')))
            (translateY binary32 p'),
          some 0, some 1]) := by
  have hgen : ∀ (L' : Libm (Option ℚ)) (p' r' : Option ℚ) (out' : Fin 16 → Option ℚ) (x y : ℚ),
      vertexShaderMain binary32 (createTransformMatrix binary32 L' p' r' out') (some x, some y) =
        ![binary32.sub (binary32.mul (some x) (cosA binary32 L' r'))
            (binary32.mul (some y) (sinA binary32 L' r')),
          binary32.add
            (binary32.add (binary32.mul (some x) (sinA binary32 L' r'))
              (binary32.mul (some y) (cosA binary32 L' r')))
            (translateY binary32 p'),
          some 0, some 1] := by
    intro L' p' r' out' x y
    rw [createTransformMatrix_eq_mat, vertexShaderMain_binary32]
  refine ⟨?_, ?_, hgen⟩
  · intro x y
    rw [hgen, hc, hs]
  · rw [createTransformMatrix_eq_mat]
    exact vertexShaderMain_centre L p r c s hc hs

/-- Witness for `vertex_image`: initial roll, correctly rounded libm. -/
theorem vertex_image_witness :
    cosA binary32 crLibm (some 0) = some 1 ∧ sinA binary32 crLibm (some 0) = some 0 ∧
    vertexShaderMain binary32
      (createTransformMatrix binary32 crLibm (some 45) (some 0) (fun _ => none))
      (some 0, some 0) = ![some 0, translateY binary32 (some 45), some 0, some 1] := by
  have hc : cosA binary32 crLibm (some 0) = some 1 := by
    simp only [cosA, radians_binary32_zero]; exact crLibm_conforming.cosf_zero
  have hs : sinA binary32 crLibm (some 0) = some 0 := by
    simp only [sinA, radians_binary32_zero]; exact crLibm_conforming.sinf_zero
  exact ⟨hc, hs, (vertex_image crLibm (some 45) (some 0) (fun _ => none) 1 0 hc hs).2.1⟩

/-! ## Claims about rigidity -/

/-- A binary32 number is an integer times a power of two. -/
theorem float_form {c : ℚ} (h : round32 c = some c) : ∃ n e : ℤ, c = (n : ℚ) * 2 ^ e := by
  unfold round32 at h
  simp only at h
  split_ifs at h with hlt
  exact ⟨_, _, (Option.some.inj h).symm⟩

/-- Two integers whose squares add up to a power of four: one of them is 0. -/
theorem sq_add_sq_eq_four_pow (K : ℕ) (a b : ℤ) (h : a ^ 2 + b ^ 2 = 4 ^ K) :
    a = 0 ∨ b = 0 := by
  induction K generalizing a b with
  | zero =>
    by_contra hne
    push_neg at hne
    have ha : 1 ≤ a ^ 2 := by
      have := sq_nonneg a
      have : a ^ 2 ≠ 0 := pow_ne_zero 2 hne.1
      omega
    have hb : 1 ≤ b ^ 2 := by
      have := sq_nonneg b
      have : b ^ 2 ≠ 0 := pow_ne_zero 2 hne.2
      omega
    simp at h
    omega
  | succ K ih =>
    have h4 : (4 : ℤ) ^ (K + 1) = 4 * 4 ^ K := by ring
    rw [h4] at h
    rcases Int.even_or_odd' a with ⟨m, rfl | rfl⟩ <;> rcases Int.even_or_odd' b with ⟨n, rfl | rfl⟩
    · have : m ^ 2 + n ^ 2 = 4 ^ K := by
        have e : (2 * m) ^ 2 + (2 * n) ^ 2 = 4 * (m ^ 2 + n ^ 2) := by ring
        rw [e] at h
        omega
      rcases ih m n this with h0 | h0
      · left; rw [h0]; ring
      · right; rw [h0]; ring
    · exfalso
      have e : (2 * m) ^ 2 + (2 * n + 1) ^ 2 = 4 * (m ^ 2 + n ^ 2 + n) + 1 := by ring
      rw [e] at h
      omega
    · exfalso
      have e : (2 * m + 1) ^ 2 + (2 * n) ^ 2 = 4 * (m ^ 2 + m + n ^ 2) + 1 := by ring
      rw [e] at h
      omega
    · exfalso
      have e : (2 * m + 1) ^ 2 + (2 * n + 1) ^ 2 = 4 * (m ^ 2 + m + n ^ 2 + n) + 2 := by ring
      rw [e] at h
      omega

/-- No two non-zero binary32 numbers have squares that add up to exactly 1. -/
theorem no_float_on_unit_circle {c s : ℚ} (hc : round32 c = some c) (hs : round32 s = some s)
    (h : c ^ 2 + s ^ 2 = 1) : c = 0 ∨ s = 0 := by
  obtain ⟨n₁, e₁, h₁⟩ := float_form hc
  obtain ⟨n₂, e₂, h₂⟩ := float_form hs
  -- a common denominator `2 ^ K`
  obtain ⟨K, hK₁, hK₂⟩ : ∃ K : ℕ, 0 ≤ e₁ + K ∧ 0 ≤ e₂ + K :=
    ⟨(max (-e₁) (-e₂)).toNat, by
      have := Int.self_le_toNat (max (-e₁) (-e₂))
      have := le_max_left (-e₁) (-e₂)
      omega, by
      have := Int.self_le_toNat (max (-e₁) (-e₂))
      have := le_max_right (-e₁) (-e₂)
      omega⟩
  obtain ⟨k₁, hk₁⟩ := Int.eq_ofNat_of_zero_le hK₁
  obtain ⟨k₂, hk₂⟩ := Int.eq_ofNat_of_zero_le hK₂
  have h2K : (2 : ℚ) ^ (K : ℤ) ≠ 0 := zpow_ne_zero _ (by norm_num)
  have hc' : c * 2 ^ (K : ℤ) = ((n₁ * 2 ^ k₁ : ℤ) : ℚ) := by
    rw [h₁, mul_assoc, ← zpow_add₀ (by norm_num : (2 : ℚ) ≠ 0), hk₁]
    push_cast; rw [zpow_natCast]
  have hs' : s * 2 ^ (K : ℤ) = ((n₂ * 2 ^ k₂ : ℤ) : ℚ) := by
    rw [h₂, mul_assoc, ← zpow_add₀ (by norm_num : (2 : ℚ) ≠ 0), hk₂]
    push_cast; rw [zpow_natCast]
  have hsum : ((n₁ * 2 ^ k₁ : ℤ) : ℚ) ^ 2 + ((n₂ * 2 ^ k₂ : ℤ) : ℚ) ^ 2 = ((4 ^ K : ℤ) : ℚ) := by
    rw [← hc', ← hs']
    have : (c * 2 ^ (K : ℤ)) ^ 2 + (s * 2 ^ (K : ℤ)) ^ 2 = (c ^ 2 + s ^ 2) * (2 ^ (K : ℤ)) ^ 2 := by
      ring
    rw [this, h, one_mul, zpow_natCast]
    push_cast
    rw [← pow_mul, mul_comm, pow_mul]
    norm_num
  have hint : (n₁ * 2 ^ k₁) ^ 2 + (n₂ * 2 ^ k₂) ^ 2 = (4 : ℤ) ^ K := by
    exact_mod_cast hsum
  rcases sq_add_sq_eq_four_pow K _ _ hint with h0 | h0
  · left
    have : c * 2 ^ (K : ℤ) = 0 := by rw [hc', h0]; simp
    exact (mul_eq_zero.mp this).resolve_right h2K
  · right
    have : s * 2 ^ (K : ℤ) = 0 := by rw [hs', h0]; simp
    exact (mul_eq_zero.mp this).resolve_right h2K

/-- With a conforming libm the squared length `c ^ 2 + s ^ 2` of a column of
the block is within `3 / 10 ^ 7` of 1. -/
theorem sq_add_sq_near_one {c s : ℚ} {θ : ℝ} (hc : |(c : ℝ) - Real.cos θ| ≤ 1 / 2 ^ (24 : ℕ))
    (hs : |(s : ℝ) - Real.sin θ| ≤ 1 / 2 ^ (24 : ℕ)) : |c ^ 2 + s ^ 2 - 1| ≤ 3 / 10 ^ 7 := by
  have hcs := Real.cos_sq_add_sin_sq θ
  have hC := Real.abs_cos_le_one θ
  have hS := Real.abs_sin_le_one θ
  have e : (c : ℝ) ^ 2 + (s : ℝ) ^ 2 - 1 =
      ((c : ℝ) - Real.cos θ) * ((c : ℝ) + Real.cos θ) +
        ((s : ℝ) - Real.sin θ) * ((s : ℝ) + Real.sin θ) := by
    have : (1 : ℝ) = Real.cos θ ^ 2 + Real.sin θ ^ 2 := hcs.symm
    nlinarith
  have h24 : (1 : ℝ) / 2 ^ (24 : ℕ) ≤ 6 / 10 ^ 8 := by norm_num
  have hc2 : |(c : ℝ) + Real.cos θ| ≤ 2 + 6 / 10 ^ 8 := by
    have : (c : ℝ) + Real.cos θ = ((c : ℝ) - Real.cos θ) + 2 * Real.cos θ := by ring
    rw [this]
    have h1 := abs_add ((c : ℝ) - Real.cos θ) (2 * Real.cos θ)
    have h2 : |2 * Real.cos θ| = 2 * |Real.cos θ| := by rw [abs_mul]; norm_num
    linarith
  have hs2 : |(s : ℝ) + Real.sin θ| ≤ 2 + 6 / 10 ^ 8 := by
    have : (s : ℝ) + Real.sin θ = ((s : ℝ) - Real.sin θ) + 2 * Real.sin θ := by ring
    rw [this]
    have h1 := abs_add ((s : ℝ) - Real.sin θ) (2 * Real.sin θ)
    have h2 : |2 * Real.sin θ| = 2 * |Real.sin θ| := by rw [abs_mul]; norm_num
    linarith
  have hR : |(c : ℝ) ^ 2 + (s : ℝ) ^ 2 - 1| ≤ 3 / 10 ^ 7 := by
    rw [e]
    have h1 := abs_add (((c : ℝ) - Real.cos θ) * ((c : ℝ) + Real.cos θ))
      (((s : ℝ) - Real.sin θ) * ((s : ℝ) + Real.sin θ))
    rw [abs_mul, abs_mul] at h1
    have p1 : |(c : ℝ) - Real.cos θ| * |(c : ℝ) + Real.cos θ| ≤ 6 / 10 ^ 8 * (2 + 6 / 10 ^ 8) :=
      mul_le_mul (le_trans hc h24) hc2 (abs_nonneg _) (by norm_num)
    have p2 : |(s : ℝ) - Real.sin θ| * |(s : ℝ) + Real.sin θ| ≤ 6 / 10 ^ 8 * (2 + 6 / 10 ^ 8) :=
      mul_le_mul (le_trans hs h24) hs2 (abs_nonneg _) (by norm_num)
    have : (6 : ℝ) / 10 ^ 8 * (2 + 6 / 10 ^ 8) + 6 / 10 ^ 8 * (2 + 6 / 10 ^ 8) ≤ 3 / 10 ^ 7 := by
      norm_num
    linarith
  have : ((|c ^ 2 + s ^ 2 - 1| : ℚ) : ℝ) ≤ ((3 / 10 ^ 7 : ℚ) : ℝ) := by
    rw [Rat.cast_abs]; push_cast; exact hR
  exact_mod_cast this

/-- For roll 30 and a conforming libm both entries of the first column are
positive floats. -/
theorem column_at_roll_30 {L : Libm (Option ℚ)} (hL : L.Conforming) (p : Option ℚ)
    (out : Fin 16 → Option ℚ) :
    ∃ c s : ℚ,
      createTransformMatrix binary32 L p (some 30) out 0 = some c ∧
      createTransformMatrix binary32 L p (some 30) out 1 = some s ∧
      round32 c = some c ∧ round32 s = some s ∧ 0 < c ∧ 0 < s := by
  obtain ⟨θ, hθ, hθe⟩ := radians_binary32_error (r := 30) (by norm_num)
  obtain ⟨c, s, h0, h1, -, -, hcf, hsf, hce, hse⟩ := rotation_entries hL p (some 30) out hθ
  refine ⟨c, s, h0, h1, hcf, hsf, ?_, ?_⟩
  all_goals
    have hθ1 : (52 : ℚ) / 100 ≤ θ ∧ θ ≤ 53 / 100 := by
      rw [abs_le] at hθe
      norm_num at hθe
      constructor <;> linarith [hθe.1, hθe.2]
    have hlo : ((52 : ℝ) / 100) ≤ (θ : ℝ) := by
      have : (((52 : ℚ) / 100 : ℚ) : ℝ) ≤ (θ : ℝ) := by exact_mod_cast hθ1.1
      push_cast at this; exact this
    have hhi : (θ : ℝ) ≤ 53 / 100 := by
      have : (θ : ℝ) ≤ (((53 : ℚ) / 100 : ℚ) : ℝ) := by exact_mod_cast hθ1.2
      push_cast at this; exact this
    have h24 : (1 : ℝ) / 2 ^ (24 : ℕ) ≤ 1 / 10 := by norm_num
    rw [abs_le] at hce hse
  · have hcos := Real.one_sub_sq_div_two_le_cos (x := (θ : ℝ))
    have : (θ : ℝ) ^ 2 ≤ (53 / 100) ^ 2 := by nlinarith
    have hcpos : (0 : ℝ) < (c : ℝ) := by nlinarith
    exact_mod_cast hcpos
  · have hsin := Real.sin_gt_sub_cube (x := (θ : ℝ)) (by linarith) (by linarith)
    have h3 : (θ : ℝ) ^ 3 ≤ (53 / 100) ^ 3 := by
      have h2 : (θ : ℝ) ^ 2 ≤ (53 / 100) ^ 2 := by nlinarith
      have : (θ : ℝ) ^ 3 = (θ : ℝ) * (θ : ℝ) ^ 2 := by ring
      rw [this]
      have : (0 : ℝ) ≤ (θ : ℝ) ^ 2 := sq_nonneg _
      nlinarith
    have h3' : (θ : ℝ) ^ 3 / 4 ≤ 4 / 100 := by
      have : ((53 : ℝ) / 100) ^ 3 / 4 ≤ 4 / 100 := by norm_num
      linarith
    have hspos : (0 : ℝ) < (s : ℝ) := by linarith [hse.1]
    exact_mod_cast hspos

/-- C10 as stated fails: for roll 30 the first column of the block is a pair of
non-zero floats `(c, s)`, and no two non-zero floats have `c ^ 2 + s ^ 2 = 1`:
the columns are not of unit length and the determinant is not 1. -/
theorem block_not_orthonormal :
    ∃ c s : ℚ,
      createTransformMatrix binary32 crLibm (some 0) (some 30) (fun _ => none) 0 = some c ∧
      createTransformMatrix binary32 crLibm (some 0) (some 30) (fun _ => none) 1 = some s ∧
      createTransformMatrix binary32 crLibm (some 0) (some 30) (fun _ => none) 4 = some (-s) ∧
      createTransformMatrix binary32 crLibm (some 0) (some 30) (fun _ => none) 5 = some c ∧
      c ^ 2 + s ^ 2 ≠ 1 ∧ c * c - (-s) * s ≠ 1 := by
  obtain ⟨c, s, h0, h1, hcf, hsf, hc, hs⟩ :=
    column_at_roll_30 crLibm_conforming (some 0) (fun _ => none)
  have h4 : createTransformMatrix binary32 crLibm (some 0) (some 30) (fun _ => none) 4
      = some (-s) := by
    rw [createTransformMatrix_binary32] at h1 ⊢
    show binary32.neg (crLibm.sinf (radians binary32 (some 30))) = some (-s)
    have h1' : crLibm.sinf (radians binary32 (some 30)) = some s := h1
    rw [h1']; rfl
  have h5 : createTransformMatrix binary32 crLibm (some 0) (some 30) (fun _ => none) 5
      = some c := by
    rw [createTransformMatrix_binary32] at h0 ⊢
    exact h0
  have hne : c ^ 2 + s ^ 2 ≠ 1 := by
    intro h
    rcases no_float_on_unit_circle hcf hsf h with h0' | h0'
    · exact (ne_of_gt hc) h0'
    · exact (ne_of_gt hs) h0'
  refine ⟨c, s, h0, h1, h4, h5, hne, ?_⟩
  intro h
  apply hne
  have : c * c - (-s) * s = c ^ 2 + s ^ 2 := by ring
  rw [← this]; exact h

/-- C10, amended: for every pitch, every roll whose float angle `theta` is
finite (every roll the program can reach, `|roll| ≤ 2 ^ 23`, is one) and a
conforming libm, the 2x2 block of the matrix is `(c, s; -s, c)` with floats
`c = cosf(theta)` and `s = sinf(theta)`: its columns are orthogonal and of equal
length, and its determinant `c ^ 2 + s ^ 2` is positive and within
`3 / 10 ^ 7` of 1, so the map the matrix induces on the plane multiplies every
squared distance by `c ^ 2 + s ^ 2`: the horizon is never sheared or mirrored,
and it is scaled by less than `3 / 10 ^ 7`, whatever constant is used to
convert degrees to radians: the bound on `c ^ 2 + s ^ 2` holds at every finite
angle. -/
theorem transform_nearly_rigid (L : Libm (Option ℚ)) (hL : L.Conforming) (p roll : Option ℚ)
    (theta : ℚ) (hθ : radians binary32 roll = some theta) (out : Fin 16 → Option ℚ) :
    (∃ c s : ℚ,
      createTransformMatrix binary32 L p roll out 0 = some c ∧
      createTransformMatrix binary32 L p roll out 1 = some s ∧
      createTransformMatrix binary32 L p roll out 4 = some (-s) ∧
      createTransformMatrix binary32 L p roll out 5 = some c ∧
      c * (-s) + s * c = 0 ∧
      c ^ 2 + s ^ 2 = (-s) ^ 2 + c ^ 2 ∧
      c * c - (-s) * s = c ^ 2 + s ^ 2 ∧
      |c ^ 2 + s ^ 2 - 1| ≤ 3 / 10 ^ 7 ∧
      0 < c ^ 2 + s ^ 2 ∧
      (∀ x₁ y₁ x₂ y₂ : ℚ,
        ((c * x₁ + (-s) * y₁) - (c * x₂ + (-s) * y₂)) ^ 2 +
          ((s * x₁ + c * y₁) - (s * x₂ + c * y₂)) ^ 2 =
        (c ^ 2 + s ^ 2) * ((x₁ - x₂) ^ 2 + (y₁ - y₂) ^ 2))) ∧
    (∀ r : ℚ, |r| ≤ 2 ^ (23 : ℕ) → ∃ t : ℚ, radians binary32 (some r) = some t) ∧
    (∀ t : ℚ, ∃ c s : ℚ, L.cosf (some t) = some c ∧ L.sinf (some t) = some s ∧
      |c ^ 2 + s ^ 2 - 1| ≤ 3 / 10 ^ 7) := by
  refine ⟨?_, ?_, ?_⟩
  · obtain ⟨c, s, h0, h1, h4, h5, -, -, hce, hse⟩ := rotation_entries hL p roll out hθ
    have hnear := sq_add_sq_near_one hce hse
    refine ⟨c, s, h0, h1, h4, h5, by ring, by ring, by ring, hnear, ?_, ?_⟩
    · rw [abs_le] at hnear
      have : (3 : ℚ) / 10 ^ 7 < 1 := by norm_num
      linarith
    · intro x₁ y₁ x₂ y₂
      ring
  · intro r hr
    obtain ⟨t, ht, -⟩ := radians_binary32_error (r := r) (le_trans hr (by norm_num))
    exact ⟨t, ht⟩
  · intro t
    obtain ⟨c, hc, -, hce⟩ := hL.cosf_some t
    obtain ⟨s, hs, -, hse⟩ := hL.sinf_some t
    exact ⟨c, s, hc, hs, sq_add_sq_near_one hce hse⟩

/-- Witness for `transform_nearly_rigid`: roll 90, correctly rounded libm. -/
theorem transform_nearly_rigid_witness :
    crLibm.Conforming ∧ radians binary32 (some 90) = some (6588397 / 4194304) ∧
    ∃ c s : ℚ,
      createTransformMatrix binary32 crLibm (some 0) (some 90) (fun _ => none) 0 = some c ∧
      createTransformMatrix binary32 crLibm (some 0) (some 90) (fun _ => none) 1 = some s ∧
      |c ^ 2 + s ^ 2 - 1| ≤ 3 / 10 ^ 7 := by
  refine ⟨crLibm_conforming, radians_binary32_90, ?_⟩
  obtain ⟨c, s, h0, h1, -, -, -, -, -, hnear, -, -⟩ :=
    (transform_nearly_rigid crLibm crLibm_conforming (some 0) (some 90) _ radians_binary32_90
      (fun _ => none)).1
  exact ⟨c, s, h0, h1, hnear⟩

/-! ## Claims about the input sampler -/

/-- One call of `processInput`, over any arithmetic: the close flag, and the
float operations applied to pitch (Up, then Down) and to roll (Left, then
Right). -/
theorem processInput_eq {F : Type} (S : FloatSem F) (window : Window) (g : Globals F) :
    processInput S window g =
      ({ shouldClose := window.shouldClose || window.keys.escape, keys := window.keys },
       { pitch :=
           if window.keys.down then
             S.sub (if window.keys.up then S.add g.pitch (S.lit 0.5) else g.pitch) (S.lit 0.5)
           else if window.keys.up then S.add g.pitch (S.lit 0.5) else g.pitch,
         roll :=
           if window.keys.right then
             S.add (if window.keys.left then S.sub g.roll (S.lit 0.5) else g.roll) (S.lit 0.5)
           else if window.keys.left then S.sub g.roll (S.lit 0.5) else g.roll }) := by
  obtain ⟨sc, ⟨esc, up, down, left, right⟩⟩ := window
  cases esc <;> cases up <;> cases down <;> cases left <;> cases right <;>
    simp [processInput]

theorem holdKeys_succ {F : Type} (S : FloatSem F) (keys : Keys) (n : ℕ) (g : Globals F) :
    holdKeys S keys (n + 1) g =
      holdKeys S keys n (processInput S { shouldClose := false, keys := keys } g).2 := by
  simp only [holdKeys, Function.iterate_succ_apply]

theorem holdKeys_add {F : Type} (S : FloatSem F) (keys : Keys) (m n : ℕ) (g : Globals F) :
    holdKeys S keys (m + n) g = holdKeys S keys m (holdKeys S keys n g) := by
  simp only [holdKeys, Function.iterate_add_apply]

/-- One binary32 step `x + 0.5f` on a multiple of one half that stays within
`2 ^ 23` in magnitude is exact. -/
theorem binary32_add_half (k : ℤ) (hk : |k + 1| ≤ 2 ^ (24 : ℕ)) :
    binary32.add (some ((k : ℚ) / 2)) (binary32.lit 0.5) = some (((k + 1 : ℤ) : ℚ) / 2) := by
  rw [binary32_lit_half, binary32_add_some]
  have e : (k : ℚ) / 2 + 1 / 2 = ((k + 1 : ℤ) : ℚ) / 2 := by push_cast; ring
  rw [e]
  exact round32_half_int (k + 1) hk

/-- One binary32 step `x - 0.5f`, likewise. -/
theorem binary32_sub_half (k : ℤ) (hk : |k - 1| ≤ 2 ^ (24 : ℕ)) :
    binary32.sub (some ((k : ℚ) / 2)) (binary32.lit 0.5) = some (((k - 1 : ℤ) : ℚ) / 2) := by
  rw [binary32_lit_half, binary32_sub_some]
  have e : (k : ℚ) / 2 - 1 / 2 = ((k - 1 : ℤ) : ℚ) / 2 := by push_cast; ring
  rw [e]
  exact round32_half_int (k - 1) hk

theorem processInput_upOnly {F : Type} (S : FloatSem F) (g : Globals F) :
    (processInput S { shouldClose := false, keys := Keys.upOnly } g).2 =
      { pitch := S.add g.pitch (S.lit 0.5), roll := g.roll } := by
  simp [processInput, Keys.upOnly, Keys.none]

theorem processInput_rightOnly {F : Type} (S : FloatSem F) (g : Globals F) :
    (processInput S { shouldClose := false, keys := Keys.rightOnly } g).2 =
      { pitch := g.pitch, roll := S.add g.roll (S.lit 0.5) } := by
  simp [processInput, Keys.rightOnly, Keys.none]

theorem holdKeys_up_binary32 (n : ℕ) (k : ℤ) (r : Option ℚ) (h : |k| + n ≤ 2 ^ (24 : ℕ)) :
    holdKeys binary32 Keys.upOnly n { pitch := some ((k : ℚ) / 2), roll := r } =
      { pitch := some (((k + n : ℤ) : ℚ) / 2), roll := r } := by
  induction n generalizing k with
  | zero => simp [holdKeys]
  | succ n ih =>
    have h1 : |k + 1| ≤ 2 ^ (24 : ℕ) := by
      have := abs_add k 1
      have h0 : |(1 : ℤ)| = 1 := abs_one
      push_cast at h
      omega
    rw [holdKeys_succ, processInput_upOnly, binary32_add_half k h1]
    have h2 : |k + 1| + (n : ℤ) ≤ 2 ^ (24 : ℕ) := by
      have := abs_add k 1
      have h0 : |(1 : ℤ)| = 1 := abs_one
      push_cast at h
      omega
    rw [ih (k + 1) h2]
    congr 3
    push_cast
    ring

theorem holdKeys_right_binary32 (n : ℕ) (k : ℤ) (p : Option ℚ) (h : |k| + n ≤ 2 ^ (24 : ℕ)) :
    holdKeys binary32 Keys.rightOnly n { pitch := p, roll := some ((k : ℚ) / 2) } =
      { pitch := p, roll := some (((k + n : ℤ) : ℚ) / 2) } := by
  induction n generalizing k with
  | zero => simp [holdKeys]
  | succ n ih =>
    have h1 : |k + 1| ≤ 2 ^ (24 : ℕ) := by
      have := abs_add k 1
      have h0 : |(1 : ℤ)| = 1 := abs_one
      push_cast at h
      omega
    rw [holdKeys_succ, processInput_rightOnly, binary32_add_half k h1]
    have h2 : |k + 1| + (n : ℤ) ≤ 2 ^ (24 : ℕ) := by
      have := abs_add k 1
      have h0 : |(1 : ℤ)| = 1 := abs_one
      push_cast at h
      omega
    rw [ih (k + 1) h2]
    congr 3
    push_cast
    ring

/-- While the same keys are held, Escape is not among them and no close
request arrives, the frame loop of `main` changes the globals exactly as the
repeated calls of `processInput` do. -/
theorem frameLoop_globals_hold {F : Type} (S : FloatSem F) (L : Libm F) (d : Driver F)
    (keys : Keys) (hesc : keys.escape = false) (n : ℕ) (g : Globals F)
    (transformMatrix : Fin 16 → F) :
    (frameLoop S L d
      (List.replicate n { keys := keys, closeRequested := false, resized := none })
      false g transformMatrix).globals = holdKeys S keys n g := by
  induction n generalizing g transformMatrix with
  | zero => simp [frameLoop, holdKeys]
  | succ n ih =>
    have hclose : ((processInput S { shouldClose := false, keys := keys } g).1.shouldClose
        || false) = false := by
      simp [processInput, hesc]
    rw [List.replicate_succ, holdKeys_succ]
    simp only [frameLoop, hclose]
    exact ih _ _

/-- At `2 ^ 23 = 8388608` the increment is absorbed: `8388608.5` is a tie and
rounds back to `8388608`. -/
theorem binary32_add_half_saturated :
    binary32.add (some 8388608) (binary32.lit 0.5) = some 8388608 := by
  rw [binary32_lit_half, binary32_add_some]
  exact round32_tie

theorem holdKeys_up_saturated (n : ℕ) (r : Option ℚ) :
    holdKeys binary32 Keys.upOnly n { pitch := some 8388608, roll := r } =
      { pitch := some 8388608, roll := r } := by
  induction n with
  | zero => simp [holdKeys]
  | succ n ih => rw [holdKeys_succ, processInput_upOnly, binary32_add_half_saturated, ih]

theorem holdKeys_right_saturated (n : ℕ) (p : Option ℚ) :
    holdKeys binary32 Keys.rightOnly n { pitch := p, roll := some 8388608 } =
      { pitch := p, roll := some 8388608 } := by
  induction n with
  | zero => simp [holdKeys]
  | succ n ih => rw [holdKeys_succ, processInput_rightOnly, binary32_add_half_saturated, ih]

/-- C5 as stated fails in binary32: from pitch `8388608` two calls with Up held
leave pitch at `8388608`, not at `8388608 + 0.5 * 2 = 8388609`; and from the
initial state `16777218` calls with Up held give pitch `8388608`, not
`0.5 * 16777218 = 8388609`. -/
theorem up_accumulation_stalls :
    (holdKeys binary32 Keys.upOnly 2 { pitch := some 8388608, roll := some 0 }).pitch
      = some 8388608 ∧
    (holdKeys binary32 Keys.upOnly 2 { pitch := some 8388608, roll := some 0 }).pitch
      ≠ some (8388608 + 0.5 * 2) ∧
    (holdKeys binary32 Keys.upOnly 16777218 (Globals.init binary32)).pitch = some 8388608 ∧
    (holdKeys binary32 Keys.upOnly 16777218 (Globals.init binary32)).pitch
      ≠ some (0 + 0.5 * 16777218) := by
  have h1 := holdKeys_up_saturated 2 (some 0)
  have hinit : Globals.init binary32 = { pitch := some (((0 : ℤ) : ℚ) / 2), roll := some 0 } := by
    simp [Globals.init, binary32_lit_zero]
  have h2 : holdKeys binary32 Keys.upOnly 16777218 (Globals.init binary32) =
      { pitch := some 8388608, roll := some 0 } := by
    rw [show (16777218 : ℕ) = 2 + 16777216 from rfl, holdKeys_add, hinit,
      holdKeys_up_binary32 16777216 0 (some 0) (by norm_num)]
    have e : (((0 + (16777216 : ℕ) : ℤ) : ℚ) / 2) = 8388608 := by norm_num
    rw [e]
    exact holdKeys_up_saturated 2 (some 0)
  rw [h1, h2]
  refine ⟨rfl, ?_, rfl, ?_⟩ <;> 
    · intro h
      have := Option.some.inj h
      norm_num at this

/-- C5, amended: in binary32, for every `N` and every starting value `k / 2`
(a multiple of 0.5) with `|k| + N ≤ 2 ^ 24`, that is with all values met on
the way of magnitude at most `2 ^ 23 = 8388608`: after `N` consecutive calls
with only Up pressed pitch is exactly `k / 2 + 0.5 * N` and roll is unchanged;
after `N` consecutive calls with only Right pressed roll is exactly
`k / 2 + 0.5 * N` and pitch is unchanged; the same holds for `N` iterations of
the frame loop of `main`.  No clamping is applied; at `8388608` the increment
is absorbed by the rounding of `float` and the value stays. -/
theorem up_right_accumulate (N : ℕ) (k : ℤ) (h : |k| + N ≤ 2 ^ (24 : ℕ)) :
    (∀ roll : Option ℚ,
      holdKeys binary32 Keys.upOnly N { pitch := some ((k : ℚ) / 2), roll := roll } =
        { pitch := some ((k : ℚ) / 2 + 0.5 * N), roll := roll }) ∧
    (∀ pitch : Option ℚ,
      holdKeys binary32 Keys.rightOnly N { pitch := pitch, roll := some ((k : ℚ) / 2) } =
        { pitch := pitch, roll := some ((k : ℚ) / 2 + 0.5 * N) }) ∧
    (∀ (L : Libm (Option ℚ)) (d : Driver (Option ℚ)) (transformMatrix : Fin 16 → Option ℚ)
        (roll : Option ℚ),
      (frameLoop binary32 L d
        (List.replicate N { keys := Keys.upOnly, closeRequested := false, resized := none })
        false { pitch := some ((k : ℚ) / 2), roll := roll } transformMatrix).globals =
        { pitch := some ((k : ℚ) / 2 + 0.5 * N), roll := roll }) ∧
    (∀ (L : Libm (Option ℚ)) (d : Driver (Option ℚ)) (transformMatrix : Fin 16 → Option ℚ)
        (pitch : Option ℚ),
      (frameLoop binary32 L d
        (List.replicate N { keys := Keys.rightOnly, closeRequested := false, resized := none })
        false { pitch := pitch, roll := some ((k : ℚ) / 2) } transformMatrix).globals =
        { pitch := pitch, roll := some ((k : ℚ) / 2 + 0.5 * N) }) ∧
    (∀ (n : ℕ) (roll : Option ℚ),
      holdKeys binary32 Keys.upOnly n { pitch := some 8388608, roll := roll } =
        { pitch := some 8388608, roll := roll }) ∧
    (∀ (n : ℕ) (pitch : Option ℚ),
      holdKeys binary32 Keys.rightOnly n { pitch := pitch, roll := some 8388608 } =
        { pitch := pitch, roll := some 8388608 }) := by
  have e : (k : ℚ) / 2 + 0.5 * N = ((k + N : ℤ) : ℚ) / 2 := by push_cast; ring
  have hup : ∀ roll : Option ℚ,
      holdKeys binary32 Keys.upOnly N { pitch := some ((k : ℚ) / 2), roll := roll } =
        { pitch := some ((k : ℚ) / 2 + 0.5 * N), roll := roll } := by
    intro roll; rw [e]; exact holdKeys_up_binary32 N k roll h
  have hright : ∀ pitch : Option ℚ,
      holdKeys binary32 Keys.rightOnly N { pitch := pitch, roll := some ((k : ℚ) / 2) } =
        { pitch := pitch, roll := some ((k : ℚ) / 2 + 0.5 * N) } := by
    intro pitch; rw [e]; exact holdKeys_right_binary32 N k pitch h
  refine ⟨hup, hright, ?_, ?_, holdKeys_up_saturated, holdKeys_right_saturated⟩
  · intro L d tm roll
    rw [frameLoop_globals_hold binary32 L d Keys.upOnly rfl, hup]
  · intro L d tm pitch
    rw [frameLoop_globals_hold binary32 L d Keys.rightOnly rfl, hright]

/-- Witness for `up_right_accumulate`: three calls with Up held, from pitch
`0.5`, give pitch `2`. -/
theorem up_right_accumulate_witness :
    |(1 : ℤ)| + (3 : ℕ) ≤ 2 ^ (24 : ℕ) ∧
    holdKeys binary32 Keys.upOnly 3 { pitch := some (1 / 2), roll := some 0 } =
      { pitch := some 2, roll := some 0 } := by
  refine ⟨by norm_num, ?_⟩
  have h := (up_right_accumulate 3 1 (by norm_num)).1 (some 0)
  norm_num at h ⊢
  exact h

/-- The new pitch in binary32, for a pitch `k / 2` of magnitude below `2 ^ 23`. -/
theorem pitch_step (up down : Bool) (k : ℤ) (hk : |k| < 2 ^ (24 : ℕ)) :
    (if down then
        binary32.sub
          (if up then binary32.add (some ((k : ℚ) / 2)) (binary32.lit 0.5)
            else some ((k : ℚ) / 2))
          (binary32.lit 0.5)
      else if up then binary32.add (some ((k : ℚ) / 2)) (binary32.lit 0.5)
      else some ((k : ℚ) / 2)) =
      some ((k : ℚ) / 2 + 0.5 * (if up then 1 else 0) - 0.5 * (if down then 1 else 0)) := by
  have hk1 : |k + 1| ≤ 2 ^ (24 : ℕ) := by
    have := abs_add k 1
    have h0 : |(1 : ℤ)| = 1 := abs_one
    omega
  have hk2 : |k - 1| ≤ 2 ^ (24 : ℕ) := by
    have := abs_sub k 1
    have h0 : |(1 : ℤ)| = 1 := abs_one
    omega
  have hk3 : |k + 1 - 1| ≤ 2 ^ (24 : ℕ) := by
    rw [add_sub_cancel_right]; exact hk.le
  cases up <;> cases down
  · simp
  · simp only [if_true, Bool.false_eq_true, if_false]
    rw [binary32_sub_half k hk2]
    congr 1; push_cast; ring
  · simp only [if_true, Bool.false_eq_true, if_false]
    rw [binary32_add_half k hk1]
    congr 1; push_cast; ring
  · simp only [if_true]
    rw [binary32_add_half k hk1, binary32_sub_half (k + 1) hk3]
    congr 1; push_cast; ring

/-- The new roll in binary32, for a roll `j / 2` of magnitude below `2 ^ 23`. -/
theorem roll_step (left right : Bool) (j : ℤ) (hj : |j| < 2 ^ (24 : ℕ)) :
    (if right then
        binary32.add
          (if left then binary32.sub (some ((j : ℚ) / 2)) (binary32.lit 0.5)
            else some ((j : ℚ) / 2))
          (binary32.lit 0.5)
      else if left then binary32.sub (some ((j : ℚ) / 2)) (binary32.lit 0.5)
      else some ((j : ℚ) / 2)) =
      some ((j : ℚ) / 2 - 0.5 * (if left then 1 else 0) + 0.5 * (if right then 1 else 0)) := by
  have hj1 : |j + 1| ≤ 2 ^ (24 : ℕ) := by
    have := abs_add j 1
    have h0 : |(1 : ℤ)| = 1 := abs_one
    omega
  have hj2 : |j - 1| ≤ 2 ^ (24 : ℕ) := by
    have := abs_sub j 1
    have h0 : |(1 : ℤ)| = 1 := abs_one
    omega
  have hj3 : |j - 1 + 1| ≤ 2 ^ (24 : ℕ) := by
    rw [sub_add_cancel]; exact hj.le
  cases left <;> cases right
  · simp
  · simp only [if_true, Bool.false_eq_true, if_false]
    rw [binary32_add_half j hj1]
    congr 1; push_cast; ring
  · simp only [if_true, Bool.false_eq_true, if_false]
    rw [binary32_sub_half j hj2]
    congr 1; push_cast; ring
  · simp only [if_true]
    rw [binary32_sub_half j hj2, binary32_add_half (j - 1) hj3]
    congr 1; push_cast; ring

/-- C4 as stated fails in binary32: at pitch `8388608` a call with only Up
pressed leaves pitch at `8388608`, not at `8388608 + 0.5`, and a call with Up
and Down pressed gives `8388607.5`, not `8388608 + 0.5 - 0.5 = 8388608`. -/
theorem up_absorbed_then_down_applied :
    (processInput binary32
      { shouldClose := false,
        keys := { escape := false, up := true, down := false, left := false, right := false } }
      { pitch := some 8388608, roll := some 0 }).2.pitch = some 8388608 ∧
    (processInput binary32
      { shouldClose := false,
        keys := { escape := false, up := true, down := false, left := false, right := false } }
      { pitch := some 8388608, roll := some 0 }).2.pitch ≠ some (8388608 + 0.5 * 1 - 0.5 * 0) ∧
    (processInput binary32
      { shouldClose := false,
        keys := { escape := false, up := true, down := true, left := false, right := false } }
      { pitch := some 8388608, roll := some 0 }).2.pitch = some (8388607 + 1 / 2) ∧
    (processInput binary32
      { shouldClose := false,
        keys := { escape := false, up := true, down := true, left := false, right := false } }
      { pitch := some 8388608, roll := some 0 }).2.pitch ≠ some (8388608 + 0.5 * 1 - 0.5 * 1) := by
  have h1 : (processInput binary32
      { shouldClose := false,
        keys := { escape := false, up := true, down := false, left := false, right := false } }
      { pitch := some 8388608, roll := some 0 }).2.pitch = some 8388608 := by
    rw [processInput_eq]
    simp only [if_true, Bool.false_eq_true, if_false]
    exact binary32_add_half_saturated
  have h2 : (processInput binary32
      { shouldClose := false,
        keys := { escape := false, up := true, down := true, left := false, right := false } }
      { pitch := some 8388608, roll := some 0 }).2.pitch = some (8388607 + 1 / 2) := by
    rw [processInput_eq]
    simp only [if_true]
    rw [binary32_add_half_saturated]
    have h := binary32_sub_half 16777216 (by norm_num)
    have e1 : (((16777216 : ℤ) : ℚ) / 2) = 8388608 := by norm_num
    have e2 : ((((16777216 : ℤ) - 1 : ℤ) : ℚ) / 2) = 8388607 + 1 / 2 := by norm_num
    rw [e1, e2] at h
    exact h
  rw [h1, h2]
  refine ⟨rfl, ?_, rfl, ?_⟩ <;>
    · intro h
      have := Option.some.inj h
      norm_num at this

/-- C4, amended: in binary32, for every state whose pitch `k / 2` and roll
`j / 2` are multiples of 0.5 of magnitude below `2 ^ 23 = 8388608`, and every
combination of the five sampled keys, one call of `processInput` yields
`pitch + 0.5 * [Up] - 0.5 * [Down]` and `roll - 0.5 * [Left] + 0.5 * [Right]`,
exactly, and sets the close flag iff it was set before or Escape is pressed:
every active effect is applied in the same call, independently of the others,
and Escape changes neither pitch nor roll.  In particular Up and Left together
give `pitch + 0.5` and `roll - 0.5`. -/
theorem processInput_effects (shouldClose : Bool) (keys : Keys) (k j : ℤ)
    (hk : |k| < 2 ^ (24 : ℕ)) (hj : |j| < 2 ^ (24 : ℕ)) :
    processInput binary32 { shouldClose := shouldClose, keys := keys }
        { pitch := some ((k : ℚ) / 2), roll := some ((j : ℚ) / 2) } =
      ({ shouldClose := shouldClose || keys.escape, keys := keys },
       { pitch := some ((k : ℚ) / 2 + 0.5 * (if keys.up then 1 else 0)
                    - 0.5 * (if keys.down then 1 else 0)),
         roll := some ((j : ℚ) / 2 - 0.5 * (if keys.left then 1 else 0)
                    + 0.5 * (if keys.right then 1 else 0)) }) ∧
    (∀ escape : Bool,
      (processInput binary32
        { shouldClose := shouldClose,
          keys := { escape := escape, up := true, down := false, left := true, right := false } }
        { pitch := some ((k : ℚ) / 2), roll := some ((j : ℚ) / 2) }).2 =
      { pitch := some ((k : ℚ) / 2 + 0.5), roll := some ((j : ℚ) / 2 - 0.5) }) := by
  have hmain : ∀ keys : Keys,
      processInput binary32 { shouldClose := shouldClose, keys := keys }
        { pitch := some ((k : ℚ) / 2), roll := some ((j : ℚ) / 2) } =
      ({ shouldClose := shouldClose || keys.escape, keys := keys },
       { pitch := some ((k : ℚ) / 2 + 0.5 * (if keys.up then 1 else 0)
                    - 0.5 * (if keys.down then 1 else 0)),
         roll := some ((j : ℚ) / 2 - 0.5 * (if keys.left then 1 else 0)
                    + 0.5 * (if keys.right then 1 else 0)) }) := by
    intro keys
    rw [processInput_eq]
    simp only
    rw [pitch_step keys.up keys.down k hk, roll_step keys.left keys.right j hj]
  refine ⟨hmain keys, ?_⟩
  intro escape
  rw [hmain]
  simp only [if_true, Bool.false_eq_true, if_false]
  norm_num

/-- Witness for `processInput_effects`: Up and Left at the initial state. -/
theorem processInput_effects_witness :
    |(0 : ℤ)| < 2 ^ (24 : ℕ) ∧
    (processInput binary32
      { shouldClose := false,
        keys := { escape := false, up := true, down := false, left := true, right := false } }
      { pitch := some (((0 : ℤ) : ℚ) / 2), roll := some (((0 : ℤ) : ℚ) / 2) }).2 =
    { pitch := some (((0 : ℤ) : ℚ) / 2 + 0.5), roll := some (((0 : ℤ) : ℚ) / 2 - 0.5) } :=
  ⟨by norm_num,
    (processInput_effects false Keys.none 0 0 (by norm_num) (by norm_num)).2 false⟩
/-- C8 as stated fails: from the initial state one call with only Down pressed
gives pitch `-0.5`, whereas an increase by 0.5 would give `0.5`. -/
theorem down_decreases_pitch :
    (processInput binary32 { shouldClose := false, keys := Keys.downOnly }
      (Globals.init binary32)).2.pitch = some (-1 / 2) ∧
    binary32.add (Globals.init binary32).pitch (binary32.lit 0.5) = some (1 / 2) ∧
    (processInput binary32 { shouldClose := false, keys := Keys.downOnly }
      (Globals.init binary32)).2.pitch ≠
      binary32.add (Globals.init binary32).pitch (binary32.lit 0.5) := by
  have hinit : Globals.init binary32 = { pitch := some (((0 : ℤ) : ℚ) / 2), roll := some 0 } := by
    simp [Globals.init, binary32_lit_zero]
  have hd : (processInput binary32 { shouldClose := false, keys := Keys.downOnly }
      (Globals.init binary32)).2.pitch = some (-1 / 2) := by
    have : (processInput binary32 { shouldClose := false, keys := Keys.downOnly }
        (Globals.init binary32)).2.pitch =
        binary32.sub (Globals.init binary32).pitch (binary32.lit 0.5) := by
      simp [processInput, Keys.downOnly, Keys.none]
    rw [this, hinit, binary32_sub_half 0 (by norm_num)]
    norm_num
  have hu : binary32.add (Globals.init binary32).pitch (binary32.lit 0.5) = some (1 / 2) := by
    rw [hinit, binary32_add_half 0 (by norm_num)]
    norm_num
  refine ⟨hd, hu, ?_⟩
  rw [hd, hu]
  intro h
  have := Option.some.inj h
  norm_num at this

/-- C8, amended: in binary32, for every pitch `k / 2` (roll `j / 2`) that is a
multiple of 0.5 of magnitude below `2 ^ 23 = 8388608`: one call of
`processInput` with Down pressed and Up not pressed decreases pitch by exactly
0.5, and with Up pressed and Down not pressed increases it by exactly 0.5; a
call with Right pressed and Left not pressed increases roll by exactly 0.5, and
with Left pressed and Right not pressed decreases it by exactly 0.5.  Up and
right are the increasing directions, down and left the decreasing ones. -/
theorem down_and_right_directions (k j : ℤ) (hk : |k| < 2 ^ (24 : ℕ))
    (hj : |j| < 2 ^ (24 : ℕ)) :
    (∀ (shouldClose escape left right : Bool) (roll : Option ℚ),
      (processInput binary32
        { shouldClose := shouldClose,
          keys := { escape := escape, up := false, down := true, left := left, right := right } }
        { pitch := some ((k : ℚ) / 2), roll := roll }).2.pitch = some ((k : ℚ) / 2 - 0.5)) ∧
    (∀ (shouldClose escape left right : Bool) (roll : Option ℚ),
      (processInput binary32
        { shouldClose := shouldClose,
          keys := { escape := escape, up := true, down := false, left := left, right := right } }
        { pitch := some ((k : ℚ) / 2), roll := roll }).2.pitch = some ((k : ℚ) / 2 + 0.5)) ∧
    (∀ (shouldClose escape up down : Bool) (pitch : Option ℚ),
      (processInput binary32
        { shouldClose := shouldClose,
          keys := { escape := escape, up := up, down := down, left := false, right := true } }
        { pitch := pitch, roll := some ((j : ℚ) / 2) }).2.roll = some ((j : ℚ) / 2 + 0.5)) ∧
    (∀ (shouldClose escape up down : Bool) (pitch : Option ℚ),
      (processInput binary32
        { shouldClose := shouldClose,
          keys := { escape := escape, up := up, down := down, left := true, right := false } }
        { pitch := pitch, roll := some ((j : ℚ) / 2) }).2.roll = some ((j : ℚ) / 2 - 0.5)) ∧
    (k : ℚ) / 2 - 0.5 < (k : ℚ) / 2 ∧ (k : ℚ) / 2 < (k : ℚ) / 2 + 0.5 ∧
    (j : ℚ) / 2 - 0.5 < (j : ℚ) / 2 ∧ (j : ℚ) / 2 < (j : ℚ) / 2 + 0.5 := by
  refine ⟨?_, ?_, ?_, ?_, by norm_num, by norm_num, by norm_num, by norm_num⟩
  · intro sc esc left right roll
    rw [processInput_eq]
    have := pitch_step false true k hk
    simp only [if_true, Bool.false_eq_true, if_false] at this ⊢
    rw [this]; congr 1; norm_num
  · intro sc esc left right roll
    rw [processInput_eq]
    have := pitch_step true false k hk
    simp only [if_true, Bool.false_eq_true, if_false] at this ⊢
    rw [this]; congr 1; norm_num
  · intro sc esc up down pitch
    rw [processInput_eq]
    have := roll_step false true j hj
    simp only [if_true, Bool.false_eq_true, if_false] at this ⊢
    rw [this]; congr 1; norm_num
  · intro sc esc up down pitch
    rw [processInput_eq]
    have := roll_step true false j hj
    simp only [if_true, Bool.false_eq_true, if_false] at this ⊢
    rw [this]; congr 1; norm_num

/-- Witness for `down_and_right_directions`: Down at the initial state gives
pitch `-0.5`. -/
theorem down_and_right_directions_witness :
    |(0 : ℤ)| < 2 ^ (24 : ℕ) ∧
    (processInput binary32
      { shouldClose := false,
        keys := { escape := false, up := false, down := true, left := false, right := false } }
      { pitch := some (((0 : ℤ) : ℚ) / 2), roll := some 0 }).2.pitch
      = some (((0 : ℤ) : ℚ) / 2 - 0.5) :=
  ⟨by norm_num,
    (down_and_right_directions 0 0 (by norm_num) (by norm_num)).1 false false false false
      (some 0)⟩

/-! ## Claims about the frame loop -/

theorem drawFrame_calls {F : Type} (S : FloatSem F) (L : Libm F) (d : Driver F) (g : Globals F)
    (transformMatrix : Fin 16 → F) :
    (drawFrame S L d g transformMatrix).1 =
      [.glClearColor (S.lit 0.0) (S.lit 0.0) (S.lit 0.0) (S.lit 1.0),
       .glClear,
       .glUniformMatrix4fv d.transformLoc 1 false (mat S L g.pitch g.roll),
       .glUniform3f d.colorLoc (S.lit 0.2) (S.lit 0.4) (S.lit 0.8),
       .glBindVertexArray (d.VAO 0),
       .glDrawElements 6,
       .glUniform3f d.colorLoc (S.lit 0.5) (S.lit 0.3) (S.lit 0.1),
       .glBindVertexArray (d.VAO 1),
       .glDrawElements 6] := by
  simp only [drawFrame, createTransformMatrix_eq_mat]

theorem drawFrame_no_useProgram {F : Type} (S : FloatSem F) (L : Libm F) (d : Driver F)
    (g : Globals F) (transformMatrix : Fin 16 → F) :
    (drawFrame S L d g transformMatrix).1.filter Call.isUseProgram = [] := by
  rw [drawFrame_calls]; rfl

theorem pollEvents_no_useProgram {F : Type} (input : FrameInput) :
    (pollEvents input : List (Call F)).filter Call.isUseProgram = [] := by
  obtain ⟨keys, close, resized⟩ := input
  rcases resized with _ | ⟨w, h⟩ <;> rfl

theorem frameLoop_no_useProgram {F : Type} (S : FloatSem F) (L : Libm F) (d : Driver F)
    (inputs : List FrameInput) (shouldClose : Bool) (g : Globals F)
    (transformMatrix : Fin 16 → F) :
    (frameLoop S L d inputs shouldClose g transformMatrix).calls.filter Call.isUseProgram
      = [] := by
  induction inputs generalizing shouldClose g transformMatrix with
  | nil => cases shouldClose <;> simp [frameLoop]
  | cons input rest ih =>
    cases shouldClose
    · simp only [frameLoop, List.filter_append, ih, drawFrame_no_useProgram,
        pollEvents_no_useProgram]
      rfl
    · simp [frameLoop]

theorem setup_useProgram {F : Type} (S : FloatSem F) (d : Driver F) :
    (setup S d).filter Call.isUseProgram = [.glUseProgram d.shaderProgram] := by
  rfl

/-- C7 as stated fails: the calls of an iteration between `processInput` and
the buffer swap are nine, and none of them activates the shader program. -/
theorem frame_has_no_useProgram :
    (drawFrame binary32 crLibm (sampleDriver binary32) (Globals.init binary32)
      (sampleDriver binary32).transformMatrix).1.map Call.isUseProgram =
      [false, false, false, false, false, false, false, false, false] := by
  rw [drawFrame_calls]; rfl

/-- C7, amended: the shader program is activated once, in the setup `main` runs
before the frame loop, and no iteration activates it again.  In every iteration the calls
issued after `processInput` and before the buffer swap are, in this order:
clear colour set to opaque black and the colour buffer cleared; the transform
matrix built from the current pitch and roll uploaded; the colour uniform set
to the sky colour, the sky mesh bound, 6 indices drawn; the colour uniform set
to the ground colour, the ground mesh bound, 6 indices drawn. -/
theorem frame_draw_sequence :
    (∀ (F : Type) (S : FloatSem F) (L : Libm F) (d : Driver F) (g : Globals F)
        (transformMatrix : Fin 16 → F),
      (drawFrame S L d g transformMatrix).1 =
        [.glClearColor (S.lit 0.0) (S.lit 0.0) (S.lit 0.0) (S.lit 1.0),
         .glClear,
         .glUniformMatrix4fv d.transformLoc 1 false (mat S L g.pitch g.roll),
         .glUniform3f d.colorLoc (S.lit 0.2) (S.lit 0.4) (S.lit 0.8),
         .glBindVertexArray (d.VAO 0),
         .glDrawElements 6,
         .glUniform3f d.colorLoc (S.lit 0.5) (S.lit 0.3) (S.lit 0.1),
         .glBindVertexArray (d.VAO 1),
         .glDrawElements 6]) ∧
    (∀ (F : Type) (S : FloatSem F) (L : Libm F) (d : Driver F) (input : FrameInput)
        (rest : List FrameInput) (g : Globals F) (transformMatrix : Fin 16 → F),
      (frameLoop S L d (input :: rest) false g transformMatrix).calls =
        (drawFrame S L d
            (processInput S { shouldClose := false, keys := input.keys } g).2
            transformMatrix).1 ++
          [.glfwSwapBuffers] ++ pollEvents input ++
          (frameLoop S L d rest
            ((processInput S { shouldClose := false, keys := input.keys } g).1.shouldClose
              || input.closeRequested)
            (processInput S { shouldClose := false, keys := input.keys } g).2
            (drawFrame S L d
              (processInput S { shouldClose := false, keys := input.keys } g).2
              transformMatrix).2).calls) ∧
    (∀ (F : Type) (S : FloatSem F) (L : Libm F) (d : Driver F) (inputs : List FrameInput)
        (shouldClose : Bool) (g : Globals F) (transformMatrix : Fin 16 → F),
      (frameLoop S L d inputs shouldClose g transformMatrix).calls.filter Call.isUseProgram
        = []) ∧
    (∀ (F : Type) (S : FloatSem F) (d : Driver F),
      (setup S d).filter Call.isUseProgram = [.glUseProgram d.shaderProgram]) ∧
    (∀ (F : Type) (S : FloatSem F) (L : Libm F) (d : Driver F) (inputs : List FrameInput),
      (main S L { d with windowCreated := true, gladLoaded := true } inputs).1.filter
        Call.isUseProgram = [.glUseProgram d.shaderProgram]) := by
  refine ⟨fun F S L d g tm => drawFrame_calls S L d g tm, ?_,
    fun F S L d inputs sc g tm => frameLoop_no_useProgram S L d inputs sc g tm,
    fun F S d => setup_useProgram S d, ?_⟩
  · intro F S L d input rest g tm
    simp only [frameLoop]
  · intro F S L d inputs
    simp only [main, Bool.not_true, Bool.false_eq_true, if_false]
    split <;>
      simp only [List.filter_append, frameLoop_no_useProgram, setup_useProgram] <;> rfl

end AttitudeIndicator
